import Mathlib

/-!
Shallow embedding of the `@dreamer/i18n` library core (`I18n` class of
`i18n.ts`) and proofs about its translation-resolution and caching pipeline.

Modelling conventions:
* JavaScript objects (`Record<string, _>`, `Map`) are insertion-ordered
  association lists with unique keys; assignment to an existing key keeps its
  slot, assignment to a fresh key appends, deletion removes the entry.
* `TranslationData` (arbitrarily nested string-leaved objects) is the `Tree`
  type below; a top-level `TranslationData` object is an `Obj`.
* Machine numbers that matter (the 32-bit wrap in `hashUrl`) are `Int` with
  explicit reduction into `[-2^31, 2^31)`.
* JavaScript functions that may throw are embedded as `Except`-valued
  functions; code that catches an exception consumes the `Except` without
  propagating it.
* Host-environment pieces (`fetch`, `dispatchEvent`, `navigator`,
  `localStorage` presence) are outside the modelled core; `Date.now()` is an
  explicit `now` argument and the durable storage is an explicit value
  threaded through the persistent-cache functions.
-/

namespace DreamerI18n

/-- Value of a translation parameter: `string | number | boolean`
(`TranslationParams` in `types.ts`). Numbers are modelled as integers; both
`String(v)` and `JSON.stringify(v)` render them in decimal. -/
inductive PValue
  | s (v : String)
  | n (v : Int)
  | b (v : Bool)
deriving DecidableEq, Repr

/-- A `TranslationParams` object: insertion-ordered string-keyed record. -/
abbrev Params := List (String × PValue)

/-- A `TranslationData` value: `string | TranslationData` at each key. -/
inductive Tree
  | leaf (s : String)
  | node (m : List (String × Tree))

/-- A top-level `TranslationData` object. -/
abbrev Obj := List (String × Tree)

/-- Association-list lookup, i.e. JavaScript property read `o[k]`. -/
def getKey : List (String × α) → String → Option α
  | [], _ => none
  | (k, v) :: rest, key => if k = key then some v else getKey rest key

/-- Association-list write, i.e. JavaScript property assignment `o[k] = v`
(existing keys keep their slot, new keys append). -/
def setKey : List (String × α) → String → α → List (String × α)
  | [], key, v => [(key, v)]
  | (k, w) :: rest, key, v =>
      if k = key then (k, v) :: rest else (k, w) :: setKey rest key v

/-- Association-list delete, i.e. `Map.delete(k)` / `delete o[k]`. -/
def delKey : List (String × α) → String → List (String × α)
  | [], _ => []
  | (k, w) :: rest, key => if k = key then rest else (k, w) :: delKey rest key

/-- Split a character list at a separator, accumulating the current segment
in reverse (the splitting JavaScript performs for `key.split(".")`; an empty
input yields one empty segment, adjacent separators yield empty segments). -/
def splitAux (sep : Char) : List Char → List Char → List (List Char)
  | [], acc => [acc.reverse]
  | c :: rest, acc =>
      if c = sep then acc.reverse :: splitAux sep rest []
      else splitAux sep rest (c :: acc)

/-- Key-path split: `key.split(".")` in `parseKey`. -/
def splitKey (key : String) : List String :=
  (splitAux '.' key.data []).map String.mk

/-- Loop body of `getNestedValue`: walk `current` through the segment list.
A `leaf` met before the segments are exhausted is `typeof current !== "object"`
(returns `undefined`); an absent property returns `undefined`. -/
def walkSegs : Tree → List String → Option Tree
  | cur, [] => some cur
  | .leaf _, _ :: _ => none
  | .node m, k :: rest =>
      match getKey m k with
      | none => none
      | some t => walkSegs t rest

/-- Pure result of `I18n.getNestedValue` (final step keeps only a string leaf:
`typeof current === "string" ? current : undefined`). -/
def getNestedPure (data : Obj) (key : String) : Option String :=
  match walkSegs (.node data) (splitKey key) with
  | some (.leaf s) => some s
  | _ => none

/-- JavaScript truthiness of a `string | undefined` value, as used by
`if (value)` in `t` and `handleMissingTranslation`: `undefined` and the empty
string are falsy. -/
def truthy : Option String → Bool
  | none => false
  | some v => v ≠ ""

/-- One character of `escapeHtml`: `HTML_ESCAPE_MAP` applied by
`str.replace(/[&<>"']/g, ...)`. -/
def escapeHtmlChar (c : Char) : String :=
  if c = '&' then "&amp;"
  else if c = '<' then "&lt;"
  else if c = '>' then "&gt;"
  else if c = '"' then "&quot;"
  else if c = Char.ofNat 39 then "&#39;"
  else String.singleton c

/-- The `escapeHtml` helper of `i18n.ts`. -/
def escapeHtml (s : String) : String :=
  String.join (s.data.map escapeHtmlChar)

/-- JavaScript `String(value)` on a parameter value. -/
def jsString : PValue → String
  | .s v => v
  | .n v => toString v
  | .b v => if v then "true" else "false"

/-- Word character of the interpolation placeholder grammar: `\w` of
`INTERPOLATION_REGEX = /\{(\w+)\}/g`. -/
def isWordChar (c : Char) : Bool :=
  c.isAlpha || c.isDigit || c = '_'

/-- Replacement callback of `interpolate`: an absent parameter reproduces the
placeholder verbatim, a present one is coerced with `String(...)` and, when
`escapeHtmlEnabled`, HTML-escaped. -/
def replParam (escapeOn : Bool) (params : Params) (w : String) : String :=
  match getKey params w with
  | none => "\x7b" ++ w ++ "\x7d"
  | some v =>
      let sv := jsString v
      if escapeOn then escapeHtml sv else sv

/-- Scanner of `text.replace(INTERPOLATION_REGEX, cb)`: at each position the
leftmost `\{(\w+)\}` match is replaced by `rep` of its word, everything else is
copied. `\w+` is greedy and `}` is not a word character, so no backtracking
arises and a match attempt at a `{` inspects exactly the maximal word run.
The `fuel` argument only makes the recursion structural: every step consumes
at least one character and at most one unit of fuel, so any `fuel ≥ cs.length`
(as supplied by `interpolate`) never runs out. -/
def interpGo (rep : String → String) : Nat → List Char → List Char
  | _, [] => []
  | 0, cs => cs
  | fuel + 1, c :: rest =>
      if c = '{' then
        let w := rest.takeWhile isWordChar
        let rest2 := rest.drop w.length
        if w.isEmpty then c :: interpGo rep fuel rest
        else if rest2.head? = some '}' then
          (rep (String.mk w)).data ++ interpGo rep fuel rest2.tail
        else c :: interpGo rep fuel rest
      else c :: interpGo rep fuel rest

/-- The `I18n.interpolate` method: `if (!params) return text`, otherwise the
global regex replacement. -/
def interpolate (escapeOn : Bool) (text : String) (params : Option Params) : String :=
  match params with
  | none => text
  | some ps => String.mk (interpGo (replParam escapeOn ps) text.data.length text.data)

/-- Decimal digit character. -/
def digitChar : Nat → Char
  | 0 => '0' | 1 => '1' | 2 => '2' | 3 => '3' | 4 => '4'
  | 5 => '5' | 6 => '6' | 7 => '7' | 8 => '8' | _ => '9'

/-- Decimal digits of a natural number, most significant first (the digit
sequence JavaScript prints for an integral number). -/
def natDigits (n : Nat) : List Char :=
  if h : n < 10 then [digitChar n]
  else natDigits (n / 10) ++ [digitChar (n % 10)]
decreasing_by exact Nat.div_lt_self (by omega) (by omega)

/-- Decimal rendering of an integer, as JavaScript `String(n)` /
`JSON.stringify(n)` produce for integral numbers. -/
def intRepr (i : Int) : String :=
  if i < 0 then "-" ++ String.mk (natDigits i.natAbs)
  else String.mk (natDigits i.natAbs)

/-- Lowercase hexadecimal digit character. -/
def hexDigitChar : Nat → Char
  | 0 => '0' | 1 => '1' | 2 => '2' | 3 => '3' | 4 => '4'
  | 5 => '5' | 6 => '6' | 7 => '7' | 8 => '8' | 9 => '9'
  | 10 => 'a' | 11 => 'b' | 12 => 'c' | 13 => 'd' | 14 => 'e' | _ => 'f'

/-- One character of the JSON string-literal escaping performed by
`JSON.stringify`: quote and backslash get a backslash escape, the five named
control escapes are used where defined, other control characters get a
`\u00xx` escape, and every other character stands for itself. -/
def jsonEscapeChar (c : Char) : List Char :=
  if c = '"' then ['\\', '"']
  else if c = '\\' then ['\\', '\\']
  else if c.toNat = 8 then ['\\', 'b']
  else if c.toNat = 9 then ['\\', 't']
  else if c.toNat = 10 then ['\\', 'n']
  else if c.toNat = 12 then ['\\', 'f']
  else if c.toNat = 13 then ['\\', 'r']
  else if c.toNat < 32 then
    ['\\', 'u', '0', '0', hexDigitChar (c.toNat / 16), hexDigitChar (c.toNat % 16)]
  else [c]

/-- Escaped body of a JSON string literal. -/
def escBodyChars : List Char → List Char
  | [] => []
  | c :: rest => jsonEscapeChar c ++ escBodyChars rest

/-- JSON string literal (`JSON.stringify` of a string). -/
def jsonStrLit (s : String) : String :=
  String.mk ('"' :: (escBodyChars s.data ++ ['"']))

/-- `JSON.stringify` of one parameter value. -/
def jsonVal : PValue → String
  | .s v => jsonStrLit v
  | .n v => intRepr v
  | .b v => if v then "true" else "false"

/-- Comma-separated members of `JSON.stringify(params)`, in insertion order. -/
def jsonEntries : Params → String
  | [] => ""
  | [kv] => jsonStrLit kv.1 ++ ":" ++ jsonVal kv.2
  | kv :: rest => jsonStrLit kv.1 ++ ":" ++ jsonVal kv.2 ++ "," ++ jsonEntries rest

/-- `JSON.stringify(params)` of a parameter object: members in insertion
order. -/
def jsonParams (ps : Params) : String :=
  "\x7b" ++ jsonEntries ps ++ "\x7d"

/-- The `I18n.getCacheKey` composite, with the current locale passed
explicitly: no params or an empty params object yields `locale:key`, otherwise
`locale:key:JSON.stringify(params)`. -/
def getCacheKey (locale key : String) (params : Option Params) : String :=
  match params with
  | none => locale ++ ":" ++ key
  | some ps =>
      if ps.length = 0 then locale ++ ":" ++ key
      else locale ++ ":" ++ key ++ ":" ++ jsonParams ps

/-- The `I18n.addToCache` method on the cache map: when the size already
reaches `cacheMaxSize`, the first-inserted key is deleted, then the new entry
is written. -/
def addToCache (maxSize : Nat) (cacheKey value : String)
    (cache : List (String × String)) : List (String × String) :=
  let cache1 :=
    if maxSize ≤ cache.length then
      match cache.head? with
      | some kv => delKey cache kv.1
      | none => cache
    else cache
  setKey cache1 cacheKey value

/-- The `fallbackBehavior` option: `"key" | "empty" | "default"`. -/
inductive FB
  | key | empty | default
deriving DecidableEq, Repr

/-- A locale-change listener (`LocaleChangeCallback`); a JavaScript callback
may throw, modelled by an `Except` result. -/
abbrev Listener := String → Except String Unit

/-- Mutable state of an `I18n` instance (the class fields that the modelled
core reads or writes). `localesSet` is the same collection as `localesArray`
(the class stores both; membership tests agree), so only the array is kept.
The persistent-cache configuration and URL caches are modelled separately with
the persistent-cache functions below. -/
structure I18n where
  currentLocale : String
  defaultLocale : String
  localesArray : List String
  translations : List (String × Obj)
  fallbackBehavior : FB
  escapeHtmlEnabled : Bool
  cacheEnabled : Bool
  cacheMaxSize : Nat
  translationCache : List (String × String)
  keyCache : List (String × List String)
  callbacks : List Listener

/-- Constructor options (`I18nOptions`to the extent the modelled core uses
them); a `none` field is an omitted option. -/
structure I18nOptions where
  defaultLocale : Option String := none
  locales : Option (List String) := none
  translations : Option (List (String × Obj)) := none
  fallbackBehavior : Option FB := none
  escapeHtml : Option Bool := none
  enableCache : Option Bool := none
  cacheMaxSize : Option Nat := none

/-- The `I18n` constructor with `autoDetect` unset (detection consults the
host environment, which is outside the modelled core; without it the current
locale starts at the default locale). -/
def mkI18n (o : I18nOptions) : I18n :=
  { defaultLocale := o.defaultLocale.getD "zh-CN"
    localesArray := o.locales.getD ["zh-CN", "en-US"]
    translations := o.translations.getD []
    fallbackBehavior := o.fallbackBehavior.getD .key
    escapeHtmlEnabled := o.escapeHtml.getD false
    cacheEnabled := o.enableCache.getD false
    cacheMaxSize := o.cacheMaxSize.getD 500
    currentLocale := o.defaultLocale.getD "zh-CN"
    translationCache := []
    keyCache := []
    callbacks := [] }

/-- The `I18n.parseKey` method: consult the key cache, else split and memoize
while the cache holds fewer than 1000 entries. -/
def parseKey (s : I18n) (key : String) : List String × I18n :=
  match getKey s.keyCache key with
  | some ks => (ks, s)
  | none =>
      let ks := splitKey key
      if s.keyCache.length < 1000 then
        (ks, { s with keyCache := setKey s.keyCache key ks })
      else (ks, s)

/-- The `I18n.getNestedValue` method (threads the key-cache state through
`parseKey`). -/
def getNestedValue (s : I18n) (data : Obj) (key : String) : Option String × I18n :=
  let r := parseKey s key
  (match walkSegs (.node data) r.1 with
   | some (.leaf v) => some v
   | _ => none, r.2)

/-- The `I18n.handleMissingTranslation` method. In the `"default"` branch the
default-locale value is returned only when truthy (non-empty) and is not
interpolated. -/
def handleMissingTranslation (s : I18n) (key : String) : String × I18n :=
  match s.fallbackBehavior with
  | .empty => ("", s)
  | .default =>
      (match getKey s.translations s.defaultLocale with
       | some defaultData =>
           let r := getNestedValue s defaultData key
           if truthy r.1 then (r.1.getD "", r.2) else (key, r.2)
       | none => (key, s))
  | .key => (key, s)

/-- Cache write of `t` on a successful resolution: `if (this.cacheEnabled)
this.addToCache(this.getCacheKey(key, params), result)`. -/
def cacheStore (s : I18n) (key : String) (params : Option Params)
    (result : String) : I18n :=
  if s.cacheEnabled then
    { s with translationCache :=
        (addToCache s.cacheMaxSize (getCacheKey s.currentLocale key params)
          result s.translationCache) }
  else s

/-- Body of `I18n.t` after the cache check: current-locale lookup, then
default-locale fallback when the locales differ, then the missing-translation
policy. `if (value)` is truthiness: an empty-string leaf does not count as
found. -/
def tCore (s : I18n) (key : String) (params : Option Params) : String × I18n :=
  let r1 :=
    match getKey s.translations s.currentLocale with
    | some localeData => getNestedValue s localeData key
    | none => (none, s)
  if truthy r1.1 then
    let result := interpolate r1.2.escapeHtmlEnabled (r1.1.getD "") params
    (result, cacheStore r1.2 key params result)
  else
    let r2 :=
      if r1.2.currentLocale ≠ r1.2.defaultLocale then
        match getKey r1.2.translations r1.2.defaultLocale with
        | some defaultData => getNestedValue r1.2 defaultData key
        | none => (none, r1.2)
      else (none, r1.2)
    if truthy r2.1 then
      let result := interpolate r2.2.escapeHtmlEnabled (r2.1.getD "") params
      (result, cacheStore r2.2 key params result)
    else handleMissingTranslation r2.2 key

/-- The `I18n.t` method: when caching is enabled a cache hit returns
immediately, otherwise resolution proceeds in `tCore`. -/
def t (s : I18n) (key : String) (params : Option Params) : String × I18n :=
  if s.cacheEnabled then
    match getKey s.translationCache (getCacheKey s.currentLocale key params) with
    | some cached => (cached, s)
    | none => tCore s key params
  else tCore s key params

/-- The `I18n.notifyCallbacks` method: every callback is invoked; a throwing
callback's exception is caught (and logged) in its own iteration, so the loop
continues and nothing propagates. The returned trace records each invocation's
outcome. -/
def notifyCallbacks (cbs : List Listener) (locale : String) : List (Except String Unit) :=
  match cbs with
  | [] => []
  | cb :: rest => cb locale :: notifyCallbacks rest locale

/-- The `I18n.setLocale` method. Returns the boolean result, the new state and
the listener-invocation trace. The terminal `dispatchLanguageChangedEvent`
talks to the host event system (external) and has no effect on engine state. -/
def setLocale (s : I18n) (locale : String) : Bool × I18n × List (Except String Unit) :=
  if ¬ s.localesArray.contains locale then (false, s, [])
  else if s.currentLocale = locale then (true, s, [])
  else
    let s1 := { s with currentLocale := locale }
    let s2 := if s1.cacheEnabled then { s1 with translationCache := [] } else s1
    (true, s2, notifyCallbacks s2.callbacks locale)

/-- Size of a tree / of an object, for the termination of `mergeDeep`. -/
def Tree.size : Tree → Nat
  | .leaf _ => 1
  | .node m => 1 + sizeObj m
where sizeObj : List (String × Tree) → Nat
  | [] => 0
  | (_, t) :: r => Tree.size t + sizeObj r

/-- The dangerous-key set (`DANGEROUS_KEYS`). -/
def DANGEROUS_KEYS : List String := ["__proto__", "constructor", "prototype"]

/-- Body of `I18n.mergeDeep`, made structural with a fuel argument: iterate
over the source keys in order; a dangerous key is skipped entirely; when both
sides hold objects the merge recurses; otherwise the source value is assigned.
Every recursive call strictly shrinks the total source size, so the
`Tree.size.sizeObj source` fuel supplied by `mergeDeep` never runs out. -/
def mergeDeepF : Nat → Obj → Obj → Obj
  | 0, target, _ => target
  | fuel + 1, target, source =>
      match source with
      | [] => target
      | (k, sv) :: rest =>
          let target1 :=
            if DANGEROUS_KEYS.contains k then target
            else
              match sv, getKey target k with
              | .node sm, some (.node tm) => setKey target k (.node (mergeDeepF fuel tm sm))
              | _, _ => setKey target k sv
          mergeDeepF fuel target1 rest

/-- The `I18n.mergeDeep` method. -/
def mergeDeep (target source : Obj) : Obj :=
  mergeDeepF (Tree.size.sizeObj source) target source

/-- The `I18n.loadTranslations` method: create the locale table if absent,
deep-merge, then clear the result cache when caching is enabled. -/
def loadTranslations (s : I18n) (locale : String) (data : Obj) : I18n :=
  let base :=
    match getKey s.translations locale with
    | some obj => obj
    | none => []
  let s1 := { s with translations := setKey s.translations locale (mergeDeep base data) }
  if s1.cacheEnabled then { s1 with translationCache := [] } else s1

/-- The `I18n.clearCache` method. -/
def clearCache (s : I18n) : I18n :=
  { s with translationCache := [] }

/-- The `I18n.onChange` method's registration effect (a `Set` keeps insertion
order; a fresh callback is appended). -/
def onChange (s : I18n) (cb : Listener) : I18n :=
  { s with callbacks := s.callbacks ++ [cb] }

/-- UTF-16 code units of a string (JavaScript `charCodeAt` enumeration):
characters beyond the BMP contribute a surrogate pair. -/
def utf16Units (s : String) : List Nat :=
  s.data.foldr
    (fun c acc =>
      let v := c.toNat
      if v < 65536 then v :: acc
      else (55296 + (v - 65536) / 1024) :: (56320 + (v - 65536) % 1024) :: acc)
    []

/-- JavaScript `ToInt32`: reduce into `[-2^31, 2^31)`. -/
def toInt32 (n : Int) : Int := (n + 2 ^ 31) % 2 ^ 32 - 2 ^ 31

/-- One iteration of `hashUrl`: `hash = ((hash << 5) - hash) + char` followed
by `hash = hash & hash` (the 32-bit wrap). -/
def hashStep (h : Int) (c : Nat) : Int :=
  toInt32 (toInt32 (h * 32) - h + c)

/-- Base-36 digit (`Number.prototype.toString(36)` alphabet, lowercase). -/
def base36Digit (d : Nat) : Char :=
  if d < 10 then Char.ofNat (48 + d) else Char.ofNat (87 + d)

/-- Base-36 digits of a natural number, most significant first. -/
def natToBase36 (n : Nat) : List Char :=
  if h : n < 36 then [base36Digit n]
  else natToBase36 (n / 36) ++ [base36Digit (n % 36)]
decreasing_by exact Nat.div_lt_self (by omega) (by omega)

/-- The `I18n.hashUrl` method: 32-bit string hash, then
`Math.abs(hash).toString(36)`. -/
def hashUrl (url : String) : String :=
  String.mk (natToBase36 ((utf16Units url).foldl hashStep 0).natAbs)

/-- Persistent-cache configuration (`persistentCacheConfig` fields used on the
read path; `pfx` is the configured key prefix). -/
structure PCConfig where
  pfx : String
  ttl : Int

/-- A value held by the durable key/value storage under an i18n cache key: the
serialized envelope `{url, timestamp, data}`, or bytes that do not deserialize
to one (`corrupt`, on which `JSON.parse` throws). Serialization of well-formed
envelopes is modelled as the identity. -/
inductive StoredVal
  | env (url : String) (timestamp : Int) (data : Obj)
  | corrupt

/-- Durable key/value storage contents. -/
abbrev Storage := List (String × StoredVal)

/-- The `I18n.getFromPersistentCache` method, with `Date.now()` passed as
`now` and the storage threaded explicitly (the storage backend is assumed
present; when it is absent the method is a `none` no-op). Returns the cached
data (or `none`) and the possibly-updated storage. An expired entry is
removed; an entry whose stored `url` differs from the requested one (hash
collision) is a miss but is not removed; a corrupt entry is caught and
reported as a miss. -/
def getFromPersistentCache (cfg : PCConfig) (now : Int) (storage : Storage)
    (url : String) : Option Obj × Storage :=
  let key := cfg.pfx ++ hashUrl url
  match getKey storage key with
  | none => (none, storage)
  | some .corrupt => (none, storage)
  | some (.env u ts data) =>
      if now - ts > cfg.ttl then (none, delKey storage key)
      else if u ≠ url then (none, storage)
      else (some data, storage)

/-- The fields of an `I18n` state that determine a (cache-free) translation
result. -/
structure Core where
  currentLocale : String
  defaultLocale : String
  translations : List (String × Obj)
  fallbackBehavior : FB
  escapeHtmlEnabled : Bool

/-- Projection of an engine state onto its resolution-relevant fields. -/
def I18n.core (s : I18n) : Core :=
  ⟨s.currentLocale, s.defaultLocale, s.translations, s.fallbackBehavior,
    s.escapeHtmlEnabled⟩

/-- Resolution of a key against one locale's tree: the leaf string at the
dotted path, if the locale has a table and the walk ends at a string leaf. -/
def resolveIn (c : Core) (loc : String) (key : String) : Option String :=
  match getKey c.translations loc with
  | some d => getNestedPure d key
  | none => none

/-- Pure value of `handleMissingTranslation` (the `"default"` branch returns
the raw default-locale value only when truthy). -/
def missPure (c : Core) (key : String) : String :=
  match c.fallbackBehavior with
  | .empty => ""
  | .default =>
      if truthy (resolveIn c c.defaultLocale key) then
        (resolveIn c c.defaultLocale key).getD ""
      else key
  | .key => key

/-- Pure value of `tCore` (the translation result ignoring the result cache):
current-locale lookup, default-locale fallback when the locales differ, then
the missing-translation policy. -/
def resolvePure (c : Core) (key : String) (params : Option Params) : String :=
  let v1 := resolveIn c c.currentLocale key
  if truthy v1 then interpolate c.escapeHtmlEnabled (v1.getD "") params
  else
    let v2 :=
      if c.currentLocale ≠ c.defaultLocale then resolveIn c c.defaultLocale key
      else none
    if truthy v2 then interpolate c.escapeHtmlEnabled (v2.getD "") params
    else missPure c key

/-- A synchronous public operation of the engine. -/
inductive Op
  | trans (key : String) (params : Option Params)
  | setLoc (l : String)
  | load (l : String) (data : Obj)
  | clear

/-- Run one operation; a `trans` operation also yields its output string. -/
def runOp (s : I18n) : Op → I18n × Option String
  | .trans key params => let r := t s key params; (r.2, some r.1)
  | .setLoc l => ((setLocale s l).2.1, none)
  | .load l data => (loadTranslations s l data, none)
  | .clear => (clearCache s, none)

/-- Run a sequence of operations, collecting the translation outputs. -/
def runOps (s : I18n) : List Op → I18n × List String
  | [] => (s, [])
  | op :: rest =>
      let r := runOp s op
      let q := runOps r.1 rest
      (q.1, r.2.toList ++ q.2)

/-! Association-list lemmas. -/

theorem getKey_mem {α : Type} {c : List (String × α)} {k : String} {v : α}
    (h : getKey c k = some v) : (k, v) ∈ c := by
  induction c with
  | nil => simp [getKey] at h
  | cons hd tl ih =>
      obtain ⟨k1, v1⟩ := hd
      rw [getKey] at h
      by_cases hk : k1 = k
      · simp only [if_pos hk] at h
        injection h with h
        simp [← hk, ← h]
      · simp only [if_neg hk] at h
        exact List.mem_cons_of_mem _ (ih h)

theorem getKey_setKey {α : Type} (c : List (String × α)) (k k' : String) (v : α) :
    getKey (setKey c k v) k' = if k = k' then some v else getKey c k' := by
  induction c with
  | nil => simp [setKey, getKey]
  | cons hd tl ih =>
      obtain ⟨k1, v1⟩ := hd
      by_cases hk : k1 = k
      · rw [setKey, if_pos hk, getKey, getKey]
        by_cases hk' : k1 = k'
        · rw [if_pos hk', if_pos (hk.symm.trans hk')]
        · rw [if_neg hk', if_neg (fun he => hk' (hk.trans he)), if_neg hk']
      · rw [setKey, if_neg hk, getKey, getKey]
        by_cases hk' : k1 = k'
        · rw [if_pos hk', if_neg (fun he => hk (hk'.trans he.symm)), if_pos hk']
        · rw [if_neg hk', ih, if_neg hk']

theorem mem_setKey {α : Type} {c : List (String × α)} {k : String} {v : α}
    {x : String × α} (h : x ∈ setKey c k v) : x = (k, v) ∨ x ∈ c := by
  induction c with
  | nil => simp [setKey] at h; simp [h]
  | cons hd tl ih =>
      obtain ⟨k1, v1⟩ := hd
      rw [setKey] at h
      by_cases hk : k1 = k
      · rw [if_pos hk] at h
        rcases List.mem_cons.1 h with h1 | h1
        · left; rw [h1, hk]
        · right; exact List.mem_cons_of_mem _ h1
      · rw [if_neg hk] at h
        rcases List.mem_cons.1 h with h1 | h1
        · right; exact h1 ▸ List.mem_cons_self _ _
        · rcases ih h1 with h2 | h2
          · left; exact h2
          · right; exact List.mem_cons_of_mem _ h2

theorem mem_delKey {α : Type} {c : List (String × α)} {k : String}
    {x : String × α} (h : x ∈ delKey c k) : x ∈ c := by
  induction c with
  | nil => simp [delKey] at h
  | cons hd tl ih =>
      obtain ⟨k1, v1⟩ := hd
      rw [delKey] at h
      by_cases hk : k1 = k
      · rw [if_pos hk] at h
        exact List.mem_cons_of_mem _ h
      · rw [if_neg hk] at h
        rcases List.mem_cons.1 h with h1 | h1
        · exact h1 ▸ List.mem_cons_self _ _
        · exact List.mem_cons_of_mem _ (ih h1)

theorem setKey_of_absent {α : Type} {c : List (String × α)} {k : String}
    (v : α) (h : getKey c k = none) : setKey c k v = c ++ [(k, v)] := by
  induction c with
  | nil => simp [setKey]
  | cons hd tl ih =>
      obtain ⟨k1, v1⟩ := hd
      rw [getKey] at h
      by_cases hk : k1 = k
      · simp [hk] at h
      · simp only [setKey, if_neg hk, List.cons_append]
        rw [ih (by simpa [hk] using h)]

theorem length_setKey_le {α : Type} (c : List (String × α)) (k : String) (v : α) :
    (setKey c k v).length ≤ c.length + 1 := by
  induction c with
  | nil => simp [setKey]
  | cons hd tl ih =>
      obtain ⟨k1, v1⟩ := hd
      rw [setKey]
      by_cases hk : k1 = k <;> simp [hk] <;> omega

/-! Key-cache invariant: every memoized entry is the split of its key (the
only values `parseKey` ever writes). -/

/-- Well-formedness of a key-cache value. -/
def KCOk (kc : List (String × List String)) : Prop :=
  ∀ k v, getKey kc k = some v → v = splitKey k

theorem KCOk.nil : KCOk [] := by intro k v h; simp [getKey] at h

theorem KCOk.setKey {kc : List (String × List String)} (h : KCOk kc) (key : String) :
    KCOk (DreamerI18n.setKey kc key (splitKey key)) := by
  intro k v hv
  rw [getKey_setKey] at hv
  by_cases hk : key = k
  · rw [if_pos hk] at hv
    injection hv with hv
    rw [← hv, hk]
  · rw [if_neg hk] at hv
    exact h k v hv

/-- Well-formedness of an engine's key cache. -/
def KeyCacheOk (s : I18n) : Prop := KCOk s.keyCache

theorem parseKey_fst {s : I18n} (hk : KeyCacheOk s) (key : String) :
    (parseKey s key).1 = splitKey key := by
  unfold parseKey
  cases h : getKey s.keyCache key with
  | none => simp only []; split <;> rfl
  | some ks => simpa using hk key ks h

theorem parseKey_state (s : I18n) (key : String) :
    ∃ kc, (parseKey s key).2 = { s with keyCache := kc } ∧ (KeyCacheOk s → KCOk kc) := by
  unfold parseKey
  cases h : getKey s.keyCache key with
  | none =>
      simp only []
      split
      · exact ⟨setKey s.keyCache key (splitKey key), rfl, fun hs => hs.setKey key⟩
      · exact ⟨s.keyCache, rfl, fun hs => hs⟩
  | some ks => exact ⟨s.keyCache, rfl, fun hs => hs⟩

theorem core_currentLocale (s : I18n) : s.core.currentLocale = s.currentLocale := rfl

theorem core_defaultLocale (s : I18n) : s.core.defaultLocale = s.defaultLocale := rfl

theorem core_translations (s : I18n) : s.core.translations = s.translations := rfl

theorem core_fallbackBehavior (s : I18n) : s.core.fallbackBehavior = s.fallbackBehavior := rfl

theorem core_escapeHtmlEnabled (s : I18n) : s.core.escapeHtmlEnabled = s.escapeHtmlEnabled := rfl

theorem resolveIn_of_some {c : Core} {loc : String} {d : Obj}
    (h : getKey c.translations loc = some d) (key : String) :
    resolveIn c loc key = getNestedPure d key := by
  unfold resolveIn; rw [h]

theorem resolveIn_of_none {c : Core} {loc : String}
    (h : getKey c.translations loc = none) (key : String) :
    resolveIn c loc key = none := by
  unfold resolveIn; rw [h]

/-- State relation: `s1` agrees with `s` on every field except possibly the
key cache and the result cache. -/
structure SameLoc (s s1 : I18n) : Prop where
  cur : s1.currentLocale = s.currentLocale
  dloc : s1.defaultLocale = s.defaultLocale
  locs : s1.localesArray = s.localesArray
  tr : s1.translations = s.translations
  fb : s1.fallbackBehavior = s.fallbackBehavior
  esc : s1.escapeHtmlEnabled = s.escapeHtmlEnabled
  ce : s1.cacheEnabled = s.cacheEnabled
  cms : s1.cacheMaxSize = s.cacheMaxSize
  cbs : s1.callbacks = s.callbacks

theorem sameLoc_self (s : I18n) : SameLoc s s :=
  ⟨rfl, rfl, rfl, rfl, rfl, rfl, rfl, rfl, rfl⟩

theorem SameLoc.trans {s s1 s2 : I18n} (h : SameLoc s s1) (h1 : SameLoc s1 s2) :
    SameLoc s s2 :=
  ⟨h1.cur.trans h.cur, h1.dloc.trans h.dloc, h1.locs.trans h.locs,
    h1.tr.trans h.tr, h1.fb.trans h.fb, h1.esc.trans h.esc,
    h1.ce.trans h.ce, h1.cms.trans h.cms, h1.cbs.trans h.cbs⟩

theorem SameLoc.core {s s1 : I18n} (h : SameLoc s s1) : s1.core = s.core := by
  unfold I18n.core
  rw [h.cur, h.dloc, h.tr, h.fb, h.esc]

theorem parseKey_spec (s : I18n) (key : String) :
    SameLoc s (parseKey s key).2 ∧
    (parseKey s key).2.translationCache = s.translationCache ∧
    (KeyCacheOk s → KCOk (parseKey s key).2.keyCache) := by
  unfold parseKey
  cases h : getKey s.keyCache key with
  | none =>
      simp only []
      split
      · exact ⟨⟨rfl, rfl, rfl, rfl, rfl, rfl, rfl, rfl, rfl⟩, rfl,
          fun hs => hs.setKey key⟩
      · exact ⟨sameLoc_self s, rfl, fun hs => hs⟩
  | some ks => exact ⟨sameLoc_self s, rfl, fun hs => hs⟩

theorem getNestedValue_spec (s : I18n) (data : Obj) (key : String) (hk : KeyCacheOk s) :
    (getNestedValue s data key).1 = getNestedPure data key ∧
    SameLoc s (getNestedValue s data key).2 ∧
    (getNestedValue s data key).2.translationCache = s.translationCache ∧
    KeyCacheOk (getNestedValue s data key).2 := by
  obtain ⟨hsl, htc, hok⟩ := parseKey_spec s key
  refine ⟨?_, hsl, htc, hok hk⟩
  simp only [getNestedValue, getNestedPure]
  rw [parseKey_fst hk]

theorem handleMissing_spec (s : I18n) (key : String) (hk : KeyCacheOk s) :
    (handleMissingTranslation s key).1 = missPure s.core key ∧
    SameLoc s (handleMissingTranslation s key).2 ∧
    (handleMissingTranslation s key).2.translationCache = s.translationCache ∧
    KeyCacheOk (handleMissingTranslation s key).2 := by
  unfold handleMissingTranslation missPure
  cases hfb : s.fallbackBehavior with
  | key =>
      rw [show s.core.fallbackBehavior = FB.key from hfb]
      exact ⟨rfl, sameLoc_self s, rfl, hk⟩
  | empty =>
      rw [show s.core.fallbackBehavior = FB.empty from hfb]
      exact ⟨rfl, sameLoc_self s, rfl, hk⟩
  | default =>
      rw [show s.core.fallbackBehavior = FB.default from hfb]
      cases hd : getKey s.translations s.defaultLocale with
      | none =>
          rw [show resolveIn s.core s.core.defaultLocale key = none from
            resolveIn_of_none (c := s.core) hd key]
          exact ⟨rfl, sameLoc_self s, rfl, hk⟩
      | some dd =>
          obtain ⟨h1, hsl, htc, hok⟩ := getNestedValue_spec s dd key hk
          rw [show resolveIn s.core s.core.defaultLocale key = getNestedPure dd key from
            resolveIn_of_some (c := s.core) hd key, ← h1]
          dsimp only
          by_cases ht : truthy (getNestedValue s dd key).1 = true
          · rw [if_pos ht, if_pos ht]
            exact ⟨rfl, hsl, htc, hok⟩
          · rw [if_neg ht, if_neg ht]
            exact ⟨rfl, hsl, htc, hok⟩

theorem truthy_none : truthy none = false := rfl

theorem cacheStore_branch {s s1 : I18n} (hsl : SameLoc s s1)
    (htc : s1.translationCache = s.translationCache) (hk1 : KeyCacheOk s1)
    (key : String) (params : Option Params) (res : String) :
    SameLoc s (cacheStore s1 key params res) ∧
    KeyCacheOk (cacheStore s1 key params res) ∧
    ((cacheStore s1 key params res).translationCache = s.translationCache ∨
      (cacheStore s1 key params res).translationCache =
        addToCache s.cacheMaxSize (getCacheKey s.currentLocale key params) res
          s.translationCache) ∧
    (s.cacheEnabled = false →
      (cacheStore s1 key params res).translationCache = s.translationCache) := by
  unfold cacheStore
  by_cases hce : s1.cacheEnabled = true
  · rw [if_pos hce]
    refine ⟨⟨hsl.cur, hsl.dloc, hsl.locs, hsl.tr, hsl.fb, hsl.esc, hsl.ce,
      hsl.cms, hsl.cbs⟩, hk1, Or.inr ?_, fun hf => ?_⟩
    · show addToCache s1.cacheMaxSize (getCacheKey s1.currentLocale key params) res
        s1.translationCache = _
      rw [hsl.cms, hsl.cur, htc]
    · rw [hsl.ce] at hce
      rw [hce] at hf
      simp at hf
  · rw [if_neg hce]
    exact ⟨hsl, hk1, Or.inl htc, fun _ => htc⟩

theorem missing_branch {s s2 : I18n} (hsl : SameLoc s s2)
    (htc : s2.translationCache = s.translationCache) (hk2 : KeyCacheOk s2)
    (key : String) :
    (handleMissingTranslation s2 key).1 = missPure s.core key ∧
    SameLoc s (handleMissingTranslation s2 key).2 ∧
    KeyCacheOk (handleMissingTranslation s2 key).2 ∧
    (handleMissingTranslation s2 key).2.translationCache = s.translationCache := by
  obtain ⟨h1, hsl2, htc2, hok2⟩ := handleMissing_spec s2 key hk2
  exact ⟨h1.trans (by rw [hsl.core]), hsl.trans hsl2, hok2, htc2.trans htc⟩

theorem tCore_spec (s : I18n) (key : String) (params : Option Params)
    (hk : KeyCacheOk s) :
    (tCore s key params).1 = resolvePure s.core key params ∧
    SameLoc s (tCore s key params).2 ∧
    KeyCacheOk (tCore s key params).2 ∧
    ((tCore s key params).2.translationCache = s.translationCache ∨
      (tCore s key params).2.translationCache =
        addToCache s.cacheMaxSize (getCacheKey s.currentLocale key params)
          (resolvePure s.core key params) s.translationCache) ∧
    (s.cacheEnabled = false →
      (tCore s key params).2.translationCache = s.translationCache) := by
  have htn : ¬ (truthy (none : Option String) = true) := by simp [truthy]
  unfold tCore resolvePure
  rw [core_currentLocale, core_defaultLocale, core_escapeHtmlEnabled]
  cases h1 : getKey s.translations s.currentLocale with
  | some d =>
      obtain ⟨hg1, hsl1, htc1, hok1⟩ := getNestedValue_spec s d key hk
      have hres1 : resolveIn s.core s.currentLocale key = getNestedPure d key :=
        resolveIn_of_some (c := s.core) (by rw [core_translations]; exact h1) key
      dsimp only
      rw [hres1, hg1]
      by_cases ht1 : truthy (getNestedPure d key) = true
      · rw [if_pos ht1, if_pos ht1, hsl1.esc]
        obtain ⟨csl, cok, ccache, cunch⟩ :=
          cacheStore_branch hsl1 htc1 hok1 key params
            (interpolate s.escapeHtmlEnabled ((getNestedPure d key).getD "") params)
        exact ⟨rfl, csl, cok, ccache, cunch⟩
      · rw [if_neg ht1, if_neg ht1, hsl1.cur, hsl1.dloc, hsl1.tr]
        by_cases hne : s.currentLocale = s.defaultLocale
        · rw [if_neg (not_not_intro hne), if_neg (not_not_intro hne)]
          dsimp only
          obtain ⟨m1, m2, m3, m4⟩ := missing_branch hsl1 htc1 hok1 key
          exact ⟨m1, m2, m3, Or.inl m4, fun _ => m4⟩
        · rw [if_pos hne, if_pos hne]
          cases h2 : getKey s.translations s.defaultLocale with
          | none =>
              have hres2 : resolveIn s.core s.defaultLocale key = none :=
                resolveIn_of_none (c := s.core) (by rw [core_translations]; exact h2) key
              rw [hres2]
              dsimp only
              obtain ⟨m1, m2, m3, m4⟩ := missing_branch hsl1 htc1 hok1 key
              exact ⟨m1, m2, m3, Or.inl m4, fun _ => m4⟩
          | some dd =>
              obtain ⟨hg2, hsl2, htc2, hok2⟩ :=
                getNestedValue_spec (getNestedValue s d key).2 dd key hok1
              have hres2 : resolveIn s.core s.defaultLocale key = getNestedPure dd key :=
                resolveIn_of_some (c := s.core) (by rw [core_translations]; exact h2) key
              rw [hres2]
              dsimp only
              rw [hg2]
              have hslc : SameLoc s (getNestedValue (getNestedValue s d key).2 dd key).2 :=
                hsl1.trans hsl2
              have htcc :
                  (getNestedValue (getNestedValue s d key).2 dd key).2.translationCache
                    = s.translationCache := htc2.trans htc1
              by_cases ht2 : truthy (getNestedPure dd key) = true
              · rw [if_pos ht2, if_pos ht2, hslc.esc]
                obtain ⟨csl, cok, ccache, cunch⟩ :=
                  cacheStore_branch hslc htcc hok2 key params
                    (interpolate s.escapeHtmlEnabled ((getNestedPure dd key).getD "") params)
                exact ⟨rfl, csl, cok, ccache, cunch⟩
              · rw [if_neg ht2, if_neg ht2]
                obtain ⟨m1, m2, m3, m4⟩ := missing_branch hslc htcc hok2 key
                exact ⟨m1, m2, m3, Or.inl m4, fun _ => m4⟩
  | none =>
      have hres1 : resolveIn s.core s.currentLocale key = none :=
        resolveIn_of_none (c := s.core) (by rw [core_translations]; exact h1) key
      rw [hres1]
      dsimp only
      by_cases hne : s.currentLocale = s.defaultLocale
      · rw [if_neg (not_not_intro hne), if_neg (not_not_intro hne)]
        dsimp only
        obtain ⟨m1, m2, m3, m4⟩ := missing_branch (sameLoc_self s) rfl hk key
        exact ⟨m1, m2, m3, Or.inl m4, fun _ => m4⟩
      · rw [if_pos hne, if_pos hne]
        cases h2 : getKey s.translations s.defaultLocale with
        | none =>
            have hres2 : resolveIn s.core s.defaultLocale key = none :=
              resolveIn_of_none (c := s.core) (by rw [core_translations]; exact h2) key
            rw [hres2]
            dsimp only
            obtain ⟨m1, m2, m3, m4⟩ := missing_branch (sameLoc_self s) rfl hk key
            exact ⟨m1, m2, m3, Or.inl m4, fun _ => m4⟩
        | some dd =>
            obtain ⟨hg2, hsl2, htc2, hok2⟩ := getNestedValue_spec s dd key hk
            have hres2 : resolveIn s.core s.defaultLocale key = getNestedPure dd key :=
              resolveIn_of_some (c := s.core) (by rw [core_translations]; exact h2) key
            rw [hres2]
            dsimp only
            rw [hg2]
            by_cases ht2 : truthy (getNestedPure dd key) = true
            · rw [if_pos ht2, if_pos ht2, hsl2.esc]
              obtain ⟨csl, cok, ccache, cunch⟩ :=
                cacheStore_branch hsl2 htc2 hok2 key params
                  (interpolate s.escapeHtmlEnabled ((getNestedPure dd key).getD "") params)
              exact ⟨rfl, csl, cok, ccache, cunch⟩
            · rw [if_neg ht2, if_neg ht2]
              obtain ⟨m1, m2, m3, m4⟩ := missing_branch hsl2 htc2 hok2 key
              exact ⟨m1, m2, m3, Or.inl m4, fun _ => m4⟩

theorem notifyCallbacks_eq_map (cbs : List Listener) (locale : String) :
    notifyCallbacks cbs locale = cbs.map (fun cb => cb locale) := by
  induction cbs with
  | nil => rfl
  | cons cb rest ih => simp [notifyCallbacks, ih]

theorem contains_of_mem {l : List String} {a : String} (h : a ∈ l) :
    l.contains a = true := by
  simpa using h

theorem not_contains_of_not_mem {l : List String} {a : String} (h : a ∉ l) :
    ¬ l.contains a = true := by
  simpa using h

/-- C3 (amended): the registry check precedes the same-locale no-op.
`setLocale` returns `false` with no state change and no listener invocation
whenever the target locale is not in the registry — even when it equals the
current locale (as for an initial current locale outside the registry); when
the target locale is registered and equals the current locale it returns
`true` with no state change and no listener invocation. -/
theorem setLocale_checks (s : I18n) (L : String) :
    (L ∉ s.localesArray → setLocale s L = (false, s, [])) ∧
    (L ∈ s.localesArray → s.currentLocale = L → setLocale s L = (true, s, [])) := by
  constructor
  · intro h
    unfold setLocale
    rw [if_pos (not_contains_of_not_mem h)]
  · intro h he
    unfold setLocale
    rw [if_neg (not_not_intro (contains_of_mem h)), if_pos he]

/-- Witness for `setLocale_checks` at a concrete engine: the default
construction registers `zh-CN` and `en-US` and starts at `zh-CN`. -/
theorem setLocale_checks_w :
    setLocale (mkI18n {}) "fr" = (false, mkI18n {}, []) ∧
    setLocale (mkI18n {}) "zh-CN" = (true, mkI18n {}, []) :=
  ⟨(setLocale_checks (mkI18n {}) "fr").1 (by decide),
   (setLocale_checks (mkI18n {}) "zh-CN").2 (by decide) (by decide)⟩

/-- C3 counterexample: with configured default locale `"fr"` outside the
registry, the initial current locale is `"fr"`, yet `setLocale("fr")` returns
`false` — not the `true` no-op success the claim requires when the argument
equals the current locale. -/
theorem setLocale_current_unregistered_cex :
    (mkI18n { defaultLocale := some "fr", locales := some ["zh-CN", "en-US"] }).currentLocale
      = "fr" ∧
    (setLocale (mkI18n { defaultLocale := some "fr", locales := some ["zh-CN", "en-US"] })
      "fr").1 = false := by
  constructor
  · rfl
  · rfl

/-- C9: during a successful locale switch, `setLocale` returns `true`, the
current locale becomes the new locale, and the invocation trace contains one
entry per registered listener, each applied to the new locale — a throwing
listener contributes its `Except.error` outcome to the trace without cutting
it short and without affecting the returned `true` (the per-iteration
`try`/`catch` of `notifyCallbacks` makes the trace total). -/
theorem setLocale_notifies_all (s : I18n) (L : String)
    (hreg : L ∈ s.localesArray) (hne : ¬ s.currentLocale = L) :
    (setLocale s L).1 = true ∧
    (setLocale s L).2.1.currentLocale = L ∧
    (setLocale s L).2.2 = s.callbacks.map (fun cb => cb L) := by
  unfold setLocale
  rw [if_neg (not_not_intro (contains_of_mem hreg)), if_neg hne]
  refine ⟨rfl, ?_, ?_⟩
  · dsimp only
    split <;> rfl
  · dsimp only
    split <;> exact notifyCallbacks_eq_map s.callbacks L

/-- A listener that throws on every invocation. -/
def cbBoom : Listener := fun _ => Except.error "boom"

/-- A listener that succeeds on every invocation. -/
def cbOk : Listener := fun _ => Except.ok ()

/-- Concrete engine with a throwing listener registered before a succeeding
one. -/
def sC9 : I18n := onChange (onChange (mkI18n {}) cbBoom) cbOk

/-- Witness for `setLocale_notifies_all`: with a throwing first listener, the
switch still succeeds and both listeners are invoked, the second one after the
first one threw. -/
theorem setLocale_notifies_all_w :
    (setLocale sC9 "en-US").1 = true ∧
    (setLocale sC9 "en-US").2.1.currentLocale = "en-US" ∧
    (setLocale sC9 "en-US").2.2 = [Except.error "boom", Except.ok ()] := by
  have h := setLocale_notifies_all sC9 "en-US" (by decide) (by decide)
  exact ⟨h.1, h.2.1, h.2.2⟩

theorem delKey_cons_self {α : Type} (k : String) (v : α) (tl : List (String × α)) :
    delKey ((k, v) :: tl) k = tl := by
  simp [delKey]

theorem getKey_none_tail {α : Type} {hd : String × α} {tl : List (String × α)}
    {k : String} (h : getKey (hd :: tl) k = none) : getKey tl k = none := by
  obtain ⟨k1, v1⟩ := hd
  rw [getKey] at h
  by_cases hk : k1 = k
  · rw [if_pos hk] at h
    exact absurd h (by simp)
  · rwa [if_neg hk] at h

theorem addToCache_length {N : Nat} {c : List (String × String)}
    (h : c.length ≤ max N 1) (ck v : String) :
    (addToCache N ck v c).length ≤ max N 1 := by
  unfold addToCache
  by_cases hge : N ≤ c.length
  · rw [if_pos hge]
    cases c with
    | nil =>
        simp [setKey]
    | cons hd tl =>
        obtain ⟨k1, v1⟩ := hd
        dsimp only [List.head?]
        rw [delKey_cons_self]
        have := length_setKey_le tl ck v
        simp only [List.length_cons] at h
        omega
  · rw [if_neg hge]
    dsimp only
    have := length_setKey_le c ck v
    omega

theorem addToCache_evict {N : Nat} {c : List (String × String)}
    (hlen : c.length = N) (hN : 1 ≤ N) {ck : String}
    (habs : getKey c ck = none) (v : String) :
    addToCache N ck v c = c.tail ++ [(ck, v)] := by
  unfold addToCache
  rw [if_pos (le_of_eq hlen.symm)]
  cases c with
  | nil => simp at hlen; omega
  | cons hd tl =>
      obtain ⟨k1, v1⟩ := hd
      dsimp only [List.head?]
      rw [delKey_cons_self, List.tail_cons]
      exact setKey_of_absent v (getKey_none_tail habs)

theorem addToCache_no_evict {N : Nat} {c : List (String × String)}
    (hlt : c.length < N) (ck v : String) :
    addToCache N ck v c = setKey c ck v := by
  unfold addToCache
  rw [if_neg (by omega)]

theorem setLocale_cache_cases (s : I18n) (L : String) :
    (setLocale s L).2.1.translationCache = s.translationCache ∨
    (setLocale s L).2.1.translationCache = [] := by
  unfold setLocale
  by_cases h1 : ¬ s.localesArray.contains L = true
  · rw [if_pos h1]; left; rfl
  · rw [if_neg h1]
    by_cases h2 : s.currentLocale = L
    · rw [if_pos h2]; left; rfl
    · rw [if_neg h2]
      dsimp only
      split
      · right; rfl
      · left; rfl

theorem loadTranslations_cache_cases (s : I18n) (L : String) (data : Obj) :
    (loadTranslations s L data).translationCache = s.translationCache ∨
    (loadTranslations s L data).translationCache = [] := by
  unfold loadTranslations
  dsimp only
  split
  · right; rfl
  · left; rfl

theorem t_cache_cases (s : I18n) (key : String) (params : Option Params)
    (hk : KeyCacheOk s) :
    (t s key params).2.translationCache = s.translationCache ∨
    (t s key params).2.translationCache =
      addToCache s.cacheMaxSize (getCacheKey s.currentLocale key params)
        (resolvePure s.core key params) s.translationCache := by
  unfold t
  by_cases hce : s.cacheEnabled = true
  · rw [if_pos hce]
    cases hhit : getKey s.translationCache (getCacheKey s.currentLocale key params) with
    | some cached => left; rfl
    | none => exact (tCore_spec s key params hk).2.2.2.1
  · rw [if_neg hce]
    exact (tCore_spec s key params hk).2.2.2.1

/-- C4 (amended): the result cache is bounded by `max N 1`, not `N`: with
`cacheMaxSize = N ≥ 1` the bound is `N` and an insertion of an absent key into
a full cache removes exactly the single oldest-inserted entry (the head of the
insertion-ordered map) before appending the new entry, while an insertion into
a non-full cache evicts nothing; with `N = 0` every insertion still stores the
new entry, so the cache holds one entry instead of zero. Any engine operation
preserves the `max N 1` bound (given a well-formed key cache). -/
theorem addToCache_bound_spec :
    (∀ (N : Nat) (c : List (String × String)) (ck v : String),
      c.length ≤ max N 1 → (addToCache N ck v c).length ≤ max N 1) ∧
    (∀ (N : Nat) (c : List (String × String)) (ck v : String),
      c.length = N → 1 ≤ N → getKey c ck = none →
      addToCache N ck v c = c.tail ++ [(ck, v)]) ∧
    (∀ (N : Nat) (c : List (String × String)) (ck v : String),
      c.length < N → addToCache N ck v c = setKey c ck v) ∧
    (∀ (s : I18n) (op : Op), KeyCacheOk s →
      s.translationCache.length ≤ max s.cacheMaxSize 1 →
      (runOp s op).1.translationCache.length ≤ max s.cacheMaxSize 1) := by
  refine ⟨fun N c ck v h => addToCache_length h ck v,
    fun N c ck v h1 h2 h3 => addToCache_evict h1 h2 h3 v,
    fun N c ck v h => addToCache_no_evict h ck v, ?_⟩
  intro s op hk hlen
  cases op with
  | trans key params =>
      rcases t_cache_cases s key params hk with h | h
      · unfold runOp
        dsimp only
        rw [h]
        exact hlen
      · unfold runOp
        dsimp only
        rw [h]
        exact addToCache_length hlen _ _
  | setLoc l =>
      unfold runOp
      rcases setLocale_cache_cases s l with h | h <;> rw [h]
      · exact hlen
      · simp
  | load l data =>
      unfold runOp
      rcases loadTranslations_cache_cases s l data with h | h <;> rw [h]
      · exact hlen
      · simp
  | clear =>
      unfold runOp
      simp [clearCache]

/-- Witness for `addToCache_bound_spec`: a full three-entry cache with
`cacheMaxSize = 3` evicts exactly its oldest entry `a` when `d` is inserted. -/
theorem addToCache_bound_spec_w :
    addToCache 3 "d" "D" [("a", "A"), ("b", "B"), ("c", "C")] =
      [("b", "B"), ("c", "C"), ("d", "D")] ∧
    (addToCache 3 "d" "D" [("a", "A"), ("b", "B"), ("c", "C")]).length ≤ max 3 1 := by
  constructor
  · exact addToCache_bound_spec.2.1 3 [("a", "A"), ("b", "B"), ("c", "C")] "d" "D"
      (by decide) (by decide) (by decide)
  · exact addToCache_bound_spec.1 3 [("a", "A"), ("b", "B"), ("c", "C")] "d" "D"
      (by decide)

/-- C4 counterexample: with `cacheMaxSize = 0` the cache does not stay within
zero entries — inserting into an empty cache deletes nothing (there is no
oldest entry) and still stores the new entry, leaving one entry. -/
theorem addToCache_zero_cex :
    addToCache 0 "k" "v" [] = [("k", "v")] ∧
    ¬ ((addToCache 0 "k" "v" [] : List (String × String)).length ≤ 0) := by
  decide

/-- C6: on a persistent-cache read for `url`, an envelope stored under the
hashed key whose age exceeds the ttl (`now - timestamp > ttl`) is deleted from
the storage and the read reports a miss; an envelope within the ttl whose
stored `url` field differs from the requested url (hash collision) yields a
miss with the storage left untouched. -/
theorem getFromPersistentCache_spec (cfg : PCConfig) (now : Int)
    (storage : Storage) (url u : String) (ts : Int) (data : Obj)
    (hstore : getKey storage (cfg.pfx ++ hashUrl url) = some (.env u ts data)) :
    (now - ts > cfg.ttl →
      getFromPersistentCache cfg now storage url =
        (none, delKey storage (cfg.pfx ++ hashUrl url))) ∧
    (¬ now - ts > cfg.ttl → u ≠ url →
      getFromPersistentCache cfg now storage url = (none, storage)) := by
  unfold getFromPersistentCache
  dsimp only
  rw [hstore]
  dsimp only
  constructor
  · intro hexp
    rw [if_pos hexp]
  · intro hexp hu
    rw [if_neg hexp, if_pos hu]

/-- Concrete persistent-cache configuration for the witness. -/
def cfgC6 : PCConfig := ⟨"i18n_cache_", 10⟩

/-- Storage holding an expired envelope for `"u"` under its hashed key. -/
def storC6a : Storage := [(cfgC6.pfx ++ hashUrl "u", .env "u" 0 [])]

/-- Storage holding a fresh envelope whose stored url `"w"` collides with the
hash slot queried for `"u"` (for the purposes of the read path the slot is
simply occupied by a different url). -/
def storC6b : Storage := [(cfgC6.pfx ++ hashUrl "u", .env "w" 95 [])]

/-- Witness for `getFromPersistentCache_spec`: at `now = 100` the age-11
envelope (ttl 10) is deleted and missed; the age-5 envelope with a different
stored url is missed but kept. -/
theorem getFromPersistentCache_spec_w :
    getFromPersistentCache cfgC6 100 storC6a "u" =
      (none, delKey storC6a (cfgC6.pfx ++ hashUrl "u")) ∧
    getFromPersistentCache cfgC6 100 storC6b "u" = (none, storC6b) :=
  ⟨(getFromPersistentCache_spec cfgC6 100 storC6a "u" "u" 0 []
      (by simp [storC6a, getKey])).1 (by decide),
   (getFromPersistentCache_spec cfgC6 100 storC6b "u" "w" 95 []
      (by simp [storC6b, getKey])).2 (by decide) (by decide)⟩

theorem t_no_hit (s : I18n) (key : String) (params : Option Params)
    (hnc : s.cacheEnabled = false ∨ s.translationCache = []) :
    t s key params = tCore s key params := by
  unfold t
  rcases hnc with h | h
  · rw [if_neg (by rw [h]; simp)]
  · by_cases hce : s.cacheEnabled = true
    · rw [if_pos hce, h]
      rfl
    · rw [if_neg hce]

theorem resolveIn_congr {c c' : Core} (h : c.translations = c'.translations)
    (loc key : String) : resolveIn c loc key = resolveIn c' loc key := by
  unfold resolveIn
  rw [h]

theorem truthy_some_of_ne {v : String} (hv : v ≠ "") : truthy (some v) = true := by
  simp [truthy, hv]

theorem resolvePure_fallback (c : Core) (key : String) (params : Option Params)
    (hcur : ¬ truthy (resolveIn c c.currentLocale key) = true)
    (hne : c.currentLocale ≠ c.defaultLocale)
    (hdf : truthy (resolveIn c c.defaultLocale key) = true) :
    resolvePure c key params =
      interpolate c.escapeHtmlEnabled ((resolveIn c c.defaultLocale key).getD "") params := by
  unfold resolvePure
  dsimp only
  rw [if_neg hcur, if_pos hne, if_pos hdf]

theorem resolvePure_missing (c : Core) (key : String) (params : Option Params)
    (h1 : resolveIn c c.currentLocale key = none)
    (h2 : resolveIn c c.defaultLocale key = none) :
    resolvePure c key params = missPure c key := by
  unfold resolvePure
  dsimp only
  rw [h1, h2]
  rw [if_neg (show ¬ truthy (none : Option String) = true by simp [truthy])]
  rw [ite_self]
  rw [if_neg (show ¬ truthy (none : Option String) = true by simp [truthy])]

theorem missPure_key {c : Core} (key : String) (h : c.fallbackBehavior = FB.key) :
    missPure c key = key := by
  unfold missPure
  rw [h]

theorem missPure_empty {c : Core} (key : String) (h : c.fallbackBehavior = FB.empty) :
    missPure c key = "" := by
  unfold missPure
  rw [h]

/-- C1 (amended): with no applicable result-cache entry (cache disabled or
empty) and a well-formed key cache: (1) when the key does not resolve to a
NON-EMPTY leaf in the current locale's tree, the current locale differs from
the default locale, and the key resolves to a non-empty leaf in the default
locale's tree, `t` returns the interpolated default-locale value regardless of
the configured `fallbackBehavior`; (2) when the key resolves to a leaf in
neither tree, `t` returns the key under the `"key"` policy and `""` under the
`"empty"` policy. An empty-string leaf counts as not found (JavaScript
truthiness), which is what the counterexample exhibits against the original
claim. -/
theorem t_fallback_spec (s : I18n) (key : String) (params : Option Params)
    (hk : KeyCacheOk s) (hnc : s.cacheEnabled = false ∨ s.translationCache = []) :
    (¬ truthy (resolveIn s.core s.currentLocale key) = true →
      s.currentLocale ≠ s.defaultLocale →
      truthy (resolveIn s.core s.defaultLocale key) = true →
      (t s key params).1 =
        interpolate s.escapeHtmlEnabled
          ((resolveIn s.core s.defaultLocale key).getD "") params) ∧
    (resolveIn s.core s.currentLocale key = none →
      resolveIn s.core s.defaultLocale key = none →
      (s.fallbackBehavior = FB.key → (t s key params).1 = key) ∧
      (s.fallbackBehavior = FB.empty → (t s key params).1 = "")) := by
  have ht := (tCore_spec s key params hk).1
  constructor
  · intro hcur hne hdf
    rw [t_no_hit s key params hnc, ht]
    exact resolvePure_fallback s.core key params hcur hne hdf
  · intro h1 h2
    constructor <;> intro hfb <;>
      rw [t_no_hit s key params hnc, ht, resolvePure_missing s.core key params h1 h2]
    · exact missPure_key key hfb
    · exact missPure_empty key hfb

/-- Engine for the C1 witness: default locale `en` with `greeting` present,
switched to `zh` whose tree is absent. -/
def oC1w : I18nOptions where
  defaultLocale := some "en"
  locales := some ["en", "zh"]
  translations := some [("en", [("greeting", Tree.leaf "Hello")])]

def sC1w : I18n := (setLocale (mkI18n oC1w) "zh").2.1

theorem sC1w_keyCacheOk : KeyCacheOk sC1w := by
  unfold KeyCacheOk
  rw [show sC1w.keyCache = [] from rfl]
  exact KCOk.nil

/-- Witness for `t_fallback_spec`: after switching to `zh`, `greeting` falls
back to the non-empty default-locale value, and an absent key falls back to
the key itself under the default `"key"` policy. -/
theorem t_fallback_spec_w :
    (t sC1w "greeting" none).1 =
      interpolate sC1w.escapeHtmlEnabled
        ((resolveIn sC1w.core sC1w.defaultLocale "greeting").getD "") none ∧
    (t sC1w "missing" none).1 = "missing" :=
  ⟨(t_fallback_spec sC1w "greeting" none sC1w_keyCacheOk (Or.inr rfl)).1
      (by decide) (by decide) (by decide),
   ((t_fallback_spec sC1w "missing" none sC1w_keyCacheOk (Or.inr rfl)).2
      (by decide) (by decide)).1 (by decide)⟩

/-- Engine for the C1 counterexample: the default locale's tree stores the
EMPTY string under `a`; the current locale `zh` has no tree. -/
def oC1cex : I18nOptions where
  defaultLocale := some "en"
  locales := some ["en", "zh"]
  translations := some [("en", [("a", Tree.leaf "")])]

def sC1cex : I18n := (setLocale (mkI18n oC1cex) "zh").2.1

/-- C1 counterexample: `a` does not resolve in the current locale's tree, the
locales differ, and resolution against the default locale's tree SUCCEEDS
(leaf `""`), so the claim requires the interpolated default value `""`; but
`t` treats the empty leaf as missing and returns the key `"a"` (policy
`"key"`). -/
theorem t_fallback_cex :
    sC1cex.currentLocale ≠ sC1cex.defaultLocale ∧
    resolveIn sC1cex.core sC1cex.currentLocale "a" = none ∧
    resolveIn sC1cex.core sC1cex.defaultLocale "a" = some "" ∧
    interpolate sC1cex.escapeHtmlEnabled "" none = "" ∧
    (t sC1cex "a" none).1 = "a" := by
  exact ⟨by decide, by decide, by decide, rfl, by decide⟩

theorem setLocale_switch (s : I18n) (L : String) (hreg : L ∈ s.localesArray)
    (hne : ¬ s.currentLocale = L) :
    (setLocale s L).1 = true ∧
    ((setLocale s L).2.1 = { s with currentLocale := L } ∨
      (setLocale s L).2.1 = { s with currentLocale := L, translationCache := [] }) := by
  unfold setLocale
  rw [if_neg (not_not_intro (contains_of_mem hreg)), if_neg hne]
  refine ⟨rfl, ?_⟩
  dsimp only
  split
  · right; rfl
  · left; rfl

theorem t_current_found (s2 : I18n) (K v : String)
    (hk2 : KeyCacheOk s2) (hnc2 : s2.cacheEnabled = false ∨ s2.translationCache = [])
    (hres : resolveIn s2.core s2.currentLocale K = some v) (hv : v ≠ "") :
    (t s2 K none).1 = v := by
  rw [t_no_hit s2 K none hnc2, (tCore_spec s2 K none hk2).1]
  unfold resolvePure
  dsimp only
  rw [core_currentLocale, hres]
  rw [if_pos (truthy_some_of_ne hv)]
  rfl

/-- C7 (amended): for a registered locale whose tree stores a NON-EMPTY leaf
string at the key's path, `setLocale` succeeds and an immediate `t` with no
params (with no applicable result-cache entry) returns exactly the stored
string. The identity round-trip fails for an empty-string leaf, which the
counterexample exhibits: the truthiness test treats it as missing. -/
theorem t_roundtrip_spec (s : I18n) (L K v : String)
    (hk : KeyCacheOk s) (hnc : s.cacheEnabled = false ∨ s.translationCache = [])
    (hreg : L ∈ s.localesArray)
    (hres : resolveIn s.core L K = some v) (hv : v ≠ "") :
    (setLocale s L).1 = true ∧ (t (setLocale s L).2.1 K none).1 = v := by
  by_cases heq : s.currentLocale = L
  · rw [(setLocale_checks s L).2 hreg heq]
    exact ⟨rfl, t_current_found s K v hk hnc (by rw [heq]; exact hres) hv⟩
  · obtain ⟨h1, h2⟩ := setLocale_switch s L hreg heq
    refine ⟨h1, ?_⟩
    rcases h2 with h2 | h2 <;> rw [h2]
    · refine t_current_found _ K v hk ?_ ?_ hv
      · rcases hnc with h | h
        · exact Or.inl h
        · exact Or.inr h
      · exact (resolveIn_congr rfl L K).trans hres
    · refine t_current_found _ K v hk (Or.inr rfl) ?_ hv
      exact (resolveIn_congr rfl L K).trans hres

/-- Engine for the C7 witness. -/
def sC7w : I18n :=
  mkI18n { translations := some [("en-US", [("g", Tree.leaf "Hi")])] }

theorem sC7w_keyCacheOk : KeyCacheOk sC7w := by
  unfold KeyCacheOk
  rw [show sC7w.keyCache = [] from rfl]
  exact KCOk.nil

/-- Witness for `t_roundtrip_spec`: switching to `en-US` and translating `g`
returns the stored `"Hi"`. -/
theorem t_roundtrip_spec_w :
    (setLocale sC7w "en-US").1 = true ∧
    (t (setLocale sC7w "en-US").2.1 "g" none).1 = "Hi" :=
  t_roundtrip_spec sC7w "en-US" "g" "Hi" sC7w_keyCacheOk (Or.inr rfl)
    (by decide) (by decide) (by decide)

/-- Engine for the C7 counterexample: the registered current locale stores the
empty string under `a`. -/
def sC7cex : I18n :=
  mkI18n { translations := some [("zh-CN", [("a", Tree.leaf "")])] }

/-- C7 counterexample: the path of `a` in the registered locale's table ends
at the leaf `""`, `setLocale` succeeds, but `t` returns the key `"a"` instead
of the stored empty string — the round-trip does not hold for the empty
string. -/
theorem t_roundtrip_cex :
    ("zh-CN" ∈ sC7cex.localesArray) ∧
    resolveIn sC7cex.core "zh-CN" "a" = some "" ∧
    (setLocale sC7cex "zh-CN").1 = true ∧
    (t (setLocale sC7cex "zh-CN").2.1 "a" none).1 = "a" ∧
    ("a" : String) ≠ "" := by
  exact ⟨by decide, by decide, by decide, by decide, by decide⟩

/-- Deep dangerous-key check: `true` iff no node of the tree, at any depth,
uses a key from `DANGEROUS_KEYS`. -/
def noDanger : Tree → Bool
  | .leaf _ => true
  | .node m => noDangerObj m
where noDangerObj : List (String × Tree) → Bool
  | [] => true
  | (k, t) :: r => !(DANGEROUS_KEYS.contains k) && noDanger t && noDangerObj r

theorem noDangerObj_cons {k : String} {t : Tree} {r : List (String × Tree)} :
    noDanger.noDangerObj ((k, t) :: r) = true ↔
      DANGEROUS_KEYS.contains k = false ∧ noDanger t = true ∧
        noDanger.noDangerObj r = true := by
  simp [noDanger.noDangerObj, Bool.and_eq_true, and_assoc]

theorem noDanger_of_getKey {c : Obj} {k : String} {t : Tree}
    (h : noDanger.noDangerObj c = true) (hget : getKey c k = some t) :
    noDanger t = true := by
  induction c with
  | nil => simp [getKey] at hget
  | cons hd tl ih =>
      obtain ⟨k1, t1⟩ := hd
      rw [noDangerObj_cons] at h
      rw [getKey] at hget
      by_cases hk : k1 = k
      · rw [if_pos hk] at hget
        injection hget with hget
        exact hget ▸ h.2.1
      · rw [if_neg hk] at hget
        exact ih h.2.2 hget

theorem noDangerObj_setKey {target : Obj} {k : String} {t : Tree}
    (htarget : noDanger.noDangerObj target = true)
    (hk : DANGEROUS_KEYS.contains k = false) (ht : noDanger t = true) :
    noDanger.noDangerObj (setKey target k t) = true := by
  induction target with
  | nil =>
      rw [setKey, noDangerObj_cons]
      exact ⟨hk, ht, rfl⟩
  | cons hd tl ih =>
      obtain ⟨k1, t1⟩ := hd
      rw [noDangerObj_cons] at htarget
      rw [setKey]
      by_cases hk1 : k1 = k
      · rw [if_pos hk1, noDangerObj_cons]
        exact ⟨hk1 ▸ hk, ht, htarget.2.2⟩
      · rw [if_neg hk1, noDangerObj_cons]
        exact ⟨htarget.1, htarget.2.1, ih htarget.2.2⟩

theorem mergeDeepF_noDanger (fuel : Nat) : ∀ target source : Obj,
    noDanger.noDangerObj target = true → noDanger.noDangerObj source = true →
    noDanger.noDangerObj (mergeDeepF fuel target source) = true := by
  induction fuel with
  | zero => intro target source ht _; exact ht
  | succ fuel ih =>
      intro target source ht hs
      cases source with
      | nil => exact ht
      | cons hd rest =>
          obtain ⟨k, sv⟩ := hd
          rw [noDangerObj_cons] at hs
          rw [mergeDeepF.eq_def]
          dsimp only
          rw [if_neg (by rw [hs.1]; simp)]
          refine ih _ rest ?_ hs.2.2
          split
          · next o sm tm hget =>
              refine noDangerObj_setKey ht hs.1 ?_
              show noDanger.noDangerObj (mergeDeepF fuel tm sm) = true
              exact ih tm sm (noDanger_of_getKey ht hget) hs.2.1
          · exact noDangerObj_setKey ht hs.1 hs.2.1

theorem mergeDeepF_dangerous (fuel : Nat) : ∀ (target source : Obj) (k : String),
    DANGEROUS_KEYS.contains k = true →
    getKey (mergeDeepF fuel target source) k = getKey target k := by
  induction fuel with
  | zero => intro target source k _; rfl
  | succ fuel ih =>
      intro target source k hk
      cases source with
      | nil => rfl
      | cons hd rest =>
          obtain ⟨k1, sv⟩ := hd
          rw [mergeDeepF.eq_def]
          dsimp only
          by_cases hd1 : DANGEROUS_KEYS.contains k1 = true
          · rw [if_pos hd1]
            exact ih _ rest k hk
          · rw [if_neg hd1]
            have hne : ¬ k1 = k := fun he => hd1 (he ▸ hk)
            rw [ih _ rest k hk]
            split
            · rw [getKey_setKey, if_neg hne]
            · rw [getKey_setKey, if_neg hne]

/-- C2 (amended): the merge filters dangerous keys only at the levels it
iterates. A dangerous key is never written at the level being merged (its
entry afterwards is exactly the target's previous entry, so no dangerous-key
assignment is ever performed and the ambient object prototype is never
augmented), sibling safe keys are merged and translatable, and when neither
the existing table nor the payload contains a dangerous key at any depth the
merged table contains none. But a payload subtree assigned wholesale (for a
previously-absent or non-object target key) is stored verbatim, so a dangerous
key nested inside it IS stored — which is the counterexample to the original
claim. -/
theorem mergeDeep_danger_spec :
    (∀ target source : Obj, noDanger.noDangerObj target = true →
      noDanger.noDangerObj source = true →
      noDanger.noDangerObj (mergeDeep target source) = true) ∧
    (∀ (target source : Obj) (k : String), DANGEROUS_KEYS.contains k = true →
      getKey (mergeDeep target source) k = getKey target k) ∧
    (t (loadTranslations (mkI18n {}) "zh-CN"
        [("__proto__", Tree.node [("polluted", Tree.leaf "x")]), ("safe", Tree.leaf "ok")])
      "safe" none).1 = "ok" ∧
    (getKey ((getKey (loadTranslations (mkI18n {}) "zh-CN"
        [("__proto__", Tree.node [("polluted", Tree.leaf "x")]), ("safe", Tree.leaf "ok")]).translations
        "zh-CN").getD []) "__proto__").isNone = true := by
  refine ⟨fun target source ht hs => mergeDeepF_noDanger _ target source ht hs,
    fun target source k hk => mergeDeepF_dangerous _ target source k hk,
    by decide, by decide⟩

/-- Witness for `mergeDeep_danger_spec`: a deep-clean payload merged into a
deep-clean table stays clean. -/
theorem mergeDeep_danger_spec_w :
    noDanger.noDangerObj
      (mergeDeep [("a", Tree.leaf "1")] [("b", Tree.node [("c", Tree.leaf "2")])]) = true ∧
    getKey (mergeDeep [("a", Tree.leaf "1")] [("b", Tree.leaf "2")]) "__proto__" =
      getKey [("a", Tree.leaf "1")] "__proto__" :=
  ⟨mergeDeep_danger_spec.1 [("a", Tree.leaf "1")] [("b", Tree.node [("c", Tree.leaf "2")])]
      (by decide) (by decide),
   mergeDeep_danger_spec.2.1 [("a", Tree.leaf "1")] [("b", Tree.leaf "2")] "__proto__"
      (by decide)⟩

/-- C2 counterexample: loading a payload whose SAFE key `a` holds a subtree
with the nested own key `__proto__` stores that dangerous key verbatim (the
wholesale assignment `target[key] = sourceValue` does not sanitize the
assigned subtree), violating the claimed invariant at nesting depth 2. -/
theorem mergeDeep_nested_danger_cex :
    noDanger.noDangerObj
      ((getKey (loadTranslations (mkI18n {}) "zh-CN"
          [("a", Tree.node [("__proto__", Tree.leaf "x")])]).translations "zh-CN").getD [])
      = false := by
  decide

/-- A template segment: a literal character of the template text, or a
`\x7bword\x7d` placeholder with its word. -/
inductive Seg
  | lit (c : Char)
  | ph (w : String)

/-- Segment decomposition of a template, following exactly the scan of
`interpGo` (same fuel discipline). -/
def segsF : Nat → List Char → List Seg
  | _, [] => []
  | 0, cs => cs.map Seg.lit
  | fuel + 1, c :: rest =>
      if c = '{' then
        let w := rest.takeWhile isWordChar
        let rest2 := rest.drop w.length
        if w.isEmpty then .lit c :: segsF fuel rest
        else if rest2.head? = some '}' then .ph (String.mk w) :: segsF fuel rest2.tail
        else .lit c :: segsF fuel rest
      else .lit c :: segsF fuel rest

/-- Segment decomposition of a template. -/
def segs (cs : List Char) : List Seg := segsF cs.length cs

/-- The template text a segment came from. -/
def rawSeg : Seg → List Char
  | .lit c => [c]
  | .ph w => '{' :: (w.data ++ ['}'])

/-- The output a segment contributes under the replacement callback: literal
characters are copied untouched, a placeholder is replaced by the callback's
result for its word. -/
def renderSeg (rep : String → String) : Seg → List Char
  | .lit c => [c]
  | .ph w => (rep w).data

theorem join_map_lit (rep : String → String) (cs : List Char) :
    ((cs.map Seg.lit).map (renderSeg rep)).flatten = cs := by
  induction cs with
  | nil => rfl
  | cons c rest ih =>
      simp only [List.map_cons, List.flatten_cons, renderSeg]
      rw [ih]
      rfl

theorem join_map_lit_raw (cs : List Char) :
    ((cs.map Seg.lit).map rawSeg).flatten = cs := by
  induction cs with
  | nil => rfl
  | cons c rest ih =>
      simp only [List.map_cons, List.flatten_cons, rawSeg]
      rw [ih]
      rfl

theorem takeWhile_append_drop_self (p : Char → Bool) (rest : List Char) :
    rest.takeWhile p ++ rest.drop (rest.takeWhile p).length = rest := by
  conv_rhs => rw [← List.take_append_drop (rest.takeWhile p).length rest]
  congr 1
  exact List.prefix_iff_eq_take.mp (List.takeWhile_prefix p)

theorem interpGo_render (rep : String → String) : ∀ (fuel : Nat) (cs : List Char),
    interpGo rep fuel cs = ((segsF fuel cs).map (renderSeg rep)).flatten := by
  intro fuel
  induction fuel with
  | zero =>
      intro cs
      cases cs with
      | nil => rfl
      | cons c rest => exact (join_map_lit rep (c :: rest)).symm
  | succ fuel ih =>
      intro cs
      cases cs with
      | nil => rfl
      | cons c rest =>
          rw [interpGo, segsF]
          by_cases hc : c = '{'
          · rw [if_pos hc, if_pos hc]
            dsimp only
            by_cases hw : (rest.takeWhile isWordChar).isEmpty = true
            · rw [if_pos hw, if_pos hw]
              simp [renderSeg, ih]
            · rw [if_neg hw, if_neg hw]
              by_cases hh : (rest.drop (rest.takeWhile isWordChar).length).head? = some '}'
              · rw [if_pos hh, if_pos hh]
                simp [renderSeg, ih]
              · rw [if_neg hh, if_neg hh]
                simp [renderSeg, ih]
          · rw [if_neg hc, if_neg hc]
            simp [renderSeg, ih]

theorem segs_rawF : ∀ (n : Nat) (cs : List Char), cs.length ≤ n →
    ∀ fuel, ((segsF fuel cs).map rawSeg).flatten = cs := by
  intro n
  induction n with
  | zero =>
      intro cs hlen fuel
      cases cs with
      | nil => cases fuel <;> rfl
      | cons c rest => simp at hlen
  | succ n ihn =>
      intro cs hlen fuel
      cases fuel with
      | zero =>
          cases cs with
          | nil => rfl
          | cons c rest => exact join_map_lit_raw (c :: rest)
      | succ fuel =>
          cases cs with
          | nil => rfl
          | cons c rest =>
              have hrlen : rest.length ≤ n := by
                simp only [List.length_cons] at hlen
                omega
              rw [segsF]
              by_cases hc : c = '{'
              · rw [if_pos hc]
                dsimp only
                by_cases hw : (rest.takeWhile isWordChar).isEmpty = true
                · rw [if_pos hw]
                  simp only [List.map_cons, List.flatten_cons, rawSeg]
                  rw [ihn rest hrlen fuel]
                  rfl
                · rw [if_neg hw]
                  by_cases hh : (rest.drop (rest.takeWhile isWordChar).length).head? = some '}'
                  · rw [if_pos hh]
                    simp only [List.map_cons, List.flatten_cons, rawSeg]
                    cases hd : rest.drop (rest.takeWhile isWordChar).length with
                    | nil => rw [hd] at hh; simp at hh
                    | cons c2 tl =>
                        rw [hd] at hh
                        simp only [List.head?] at hh
                        injection hh with hh
                        have htl1 : (rest.drop (rest.takeWhile isWordChar).length).length
                            ≤ rest.length := by simp
                        rw [hd] at htl1
                        simp only [List.length_cons] at htl1
                        have hlen2 : tl.length ≤ n := by omega
                        rw [List.tail_cons, ihn tl hlen2 fuel, hc]
                        show '{' :: ((String.mk (rest.takeWhile isWordChar)).data ++ ['}'])
                            ++ tl = '{' :: rest
                        have hrest : rest.takeWhile isWordChar ++ ('}' :: tl) = rest := by
                          conv_rhs => rw [← takeWhile_append_drop_self isWordChar rest]
                          rw [hd, hh]
                        rw [show (String.mk (rest.takeWhile isWordChar)).data
                            = rest.takeWhile isWordChar from rfl]
                        conv_rhs => rw [← hrest]
                        simp
                  · rw [if_neg hh]
                    simp only [List.map_cons, List.flatten_cons, rawSeg]
                    rw [ihn rest hrlen fuel]
                    rfl
              · rw [if_neg hc]
                simp only [List.map_cons, List.flatten_cons, rawSeg]
                rw [ihn rest hrlen fuel]
                rfl

/-- C8: interpolation factors through the segment decomposition of the
template. The output is the concatenation, segment by segment, of: the literal
template characters, copied untouched (never HTML-escaped), and for each
`\x7bword\x7d` placeholder the replacement callback's result — which is the
placeholder verbatim (braces included) when the parameter is absent, and the
`String(...)`-coerced value, HTML-escaped exactly when escaping is enabled,
when it is present. The decomposition reproduces the template exactly
(`rawSeg` conjunct), and a missing parameter map skips the scan entirely. -/
theorem interpolate_decomposition (escOn : Bool) (text : String) (ps : Params) :
    (interpolate escOn text (some ps)).data =
      ((segs text.data).map (renderSeg (replParam escOn ps))).flatten ∧
    ((segs text.data).map rawSeg).flatten = text.data ∧
    interpolate escOn text none = text ∧
    (∀ w, getKey ps w = none → replParam escOn ps w = "\x7b" ++ w ++ "\x7d") ∧
    (∀ w v, getKey ps w = some v →
      replParam escOn ps w =
        if escOn then escapeHtml (jsString v) else jsString v) := by
  refine ⟨?_, segs_rawF text.data.length text.data le_rfl text.data.length, rfl, ?_, ?_⟩
  · show (interpGo (replParam escOn ps) text.data.length text.data) = _
    exact interpGo_render (replParam escOn ps) text.data.length text.data
  · intro w hw
    unfold replParam
    rw [hw]
  · intro w v hv
    unfold replParam
    rw [hv]

/-- Witness for `interpolate_decomposition` at a concrete template and
parameter map: a present parameter is substituted (escaped when enabled), an
absent one stays verbatim, and the rendering matches the direct evaluation. -/
theorem interpolate_decomposition_w :
    replParam true [("a", PValue.s "<b>")] "a" = escapeHtml (jsString (PValue.s "<b>")) ∧
    replParam false [("a", PValue.s "<b>")] "b" = "\x7bb\x7d" ∧
    (interpolate true "Hi \x7ba\x7d \x7bb\x7d" (some [("a", PValue.s "<b>")])).data =
      ((segs ("Hi \x7ba\x7d \x7bb\x7d" : String).data).map
        (renderSeg (replParam true [("a", PValue.s "<b>")]))).flatten ∧
    interpolate true "Hi \x7ba\x7d \x7bb\x7d" (some [("a", PValue.s "<b>")]) =
      "Hi &lt;b&gt; \x7bb\x7d" :=
  ⟨(interpolate_decomposition true "t" [("a", PValue.s "<b>")]).2.2.2.2 "a"
      (PValue.s "<b>") (by decide),
   (interpolate_decomposition false "t" [("a", PValue.s "<b>")]).2.2.2.1 "b" (by decide),
   (interpolate_decomposition true "Hi \x7ba\x7d \x7bb\x7d" [("a", PValue.s "<b>")]).1,
   by decide⟩

/-! Left inverse of the parameter serialization, used to prove that
`JSON.stringify` (as modelled) is injective on parameter objects. -/

/-- Value of an unescaped named escape character. -/
def unescChar (e : Char) : Option Char :=
  if e = '"' then some '"'
  else if e = '\\' then some '\\'
  else if e = 'b' then some (Char.ofNat 8)
  else if e = 't' then some (Char.ofNat 9)
  else if e = 'n' then some (Char.ofNat 10)
  else if e = 'f' then some (Char.ofNat 12)
  else if e = 'r' then some (Char.ofNat 13)
  else none

/-- Value of a lowercase hexadecimal digit character. -/
def hexVal (c : Char) : Option Nat :=
  if c.isDigit then some (c.toNat - 48)
  else if 97 ≤ c.toNat ∧ c.toNat ≤ 102 then some (c.toNat - 87)
  else none

/-- Parse the body of a JSON string literal (after the opening quote) up to
its closing quote, undoing the escapes `jsonEscapeChar` emits. The fuel bounds
the number of produced characters. -/
def parseStrBodyF : Nat → List Char → Option (List Char × List Char)
  | 0, _ => none
  | fuel + 1, cs =>
      match cs with
      | [] => none
      | c :: rest =>
          if c = '"' then some ([], rest)
          else if c = '\\' then
            match rest with
            | [] => none
            | e :: rest2 =>
                if e = 'u' then
                  match rest2 with
                  | h1 :: h2 :: h3 :: h4 :: rest3 =>
                      match hexVal h1, hexVal h2, hexVal h3, hexVal h4 with
                      | some a, some b, some a2, some b2 =>
                          (parseStrBodyF fuel rest3).map
                            (fun r => (Char.ofNat (((a * 16 + b) * 16 + a2) * 16 + b2) :: r.1, r.2))
                      | _, _, _, _ => none
                  | _ => none
                else
                  match unescChar e with
                  | some u => (parseStrBodyF fuel rest2).map (fun r => (u :: r.1, r.2))
                  | none => none
          else (parseStrBodyF fuel rest).map (fun r => (c :: r.1, r.2))

theorem hexVal_hexDigitChar {d : Nat} (hd : d < 16) :
    hexVal (hexDigitChar d) = some d := by
  interval_cases d <;> decide

theorem escBodyChars_length (s : List Char) : s.length ≤ (escBodyChars s).length := by
  induction s with
  | nil => simp [escBodyChars]
  | cons c rest ih =>
      rw [escBodyChars]
      have h1 : 1 ≤ (jsonEscapeChar c).length := by
        unfold jsonEscapeChar
        split_ifs <;> simp
      simp only [List.length_append, List.length_cons]
      omega

theorem psb_quote (fuel : Nat) (rest : List Char) :
    parseStrBodyF (fuel + 1) ('"' :: rest) = some ([], rest) := by
  rw [parseStrBodyF.eq_def]
  simp

theorem psb_plain (fuel : Nat) {c : Char} (hq : ¬ c = '"') (hb : ¬ c = '\\')
    (rest : List Char) :
    parseStrBodyF (fuel + 1) (c :: rest) =
      (parseStrBodyF fuel rest).map (fun r => (c :: r.1, r.2)) := by
  rw [parseStrBodyF.eq_def]
  dsimp only
  rw [if_neg hq, if_neg hb]

theorem psb_esc (fuel : Nat) {e u : Char} (he : ¬ e = 'u') (hu : unescChar e = some u)
    (rest2 : List Char) :
    parseStrBodyF (fuel + 1) ('\\' :: e :: rest2) =
      (parseStrBodyF fuel rest2).map (fun r => (u :: r.1, r.2)) := by
  rw [parseStrBodyF.eq_def]
  dsimp only
  rw [if_neg (by decide), if_pos rfl, if_neg he, hu]

theorem psb_hex (fuel : Nat) {h1 h2 h3 h4 : Char} {a b a2 b2 : Nat}
    (e1 : hexVal h1 = some a) (e2 : hexVal h2 = some b)
    (e3 : hexVal h3 = some a2) (e4 : hexVal h4 = some b2) (rest3 : List Char) :
    parseStrBodyF (fuel + 1) ('\\' :: 'u' :: h1 :: h2 :: h3 :: h4 :: rest3) =
      (parseStrBodyF fuel rest3).map
        (fun r => (Char.ofNat (((a * 16 + b) * 16 + a2) * 16 + b2) :: r.1, r.2)) := by
  rw [parseStrBodyF.eq_def]
  dsimp only
  rw [if_neg (by decide), if_pos rfl, if_pos rfl, e1, e2, e3, e4]

theorem parseStrBodyF_round : ∀ (fuel : Nat) (s rest : List Char), s.length < fuel →
    parseStrBodyF fuel (escBodyChars s ++ '"' :: rest) = some (s, rest) := by
  intro fuel
  induction fuel with
  | zero => intro s rest h; omega
  | succ fuel ih =>
      intro s rest hlen
      cases s with
      | nil =>
          rw [show escBodyChars [] = [] from rfl, List.nil_append]
          exact psb_quote fuel rest
      | cons c s1 =>
          have hlen1 : s1.length < fuel := by
            simp only [List.length_cons] at hlen
            omega
          rw [show escBodyChars (c :: s1) = jsonEscapeChar c ++ escBodyChars s1 from rfl]
          unfold jsonEscapeChar
          by_cases hq : c = '"'
          · rw [if_pos hq,
              show (['\\', '"'] ++ escBodyChars s1 ++ '"' :: rest)
                = '\\' :: '"' :: (escBodyChars s1 ++ '"' :: rest) from by simp,
              psb_esc fuel (by decide) (show unescChar '"' = some '"' from rfl),
              ih s1 rest hlen1, hq]
            rfl
          · rw [if_neg hq]
            by_cases hb : c = '\\'
            · rw [if_pos hb,
                show (['\\', '\\'] ++ escBodyChars s1 ++ '"' :: rest)
                  = '\\' :: '\\' :: (escBodyChars s1 ++ '"' :: rest) from by simp,
                psb_esc fuel (by decide) (show unescChar '\\' = some '\\' from rfl),
                ih s1 rest hlen1, hb]
              rfl
            · rw [if_neg hb]
              by_cases h8 : c.toNat = 8
              · rw [if_pos h8,
                  show (['\\', 'b'] ++ escBodyChars s1 ++ '"' :: rest)
                    = '\\' :: 'b' :: (escBodyChars s1 ++ '"' :: rest) from by simp,
                  psb_esc fuel (by decide) (show unescChar 'b' = some (Char.ofNat 8) from rfl),
                  ih s1 rest hlen1, ← h8, Char.ofNat_toNat]
                rfl
              · rw [if_neg h8]
                by_cases h9 : c.toNat = 9
                · rw [if_pos h9,
                    show (['\\', 't'] ++ escBodyChars s1 ++ '"' :: rest)
                      = '\\' :: 't' :: (escBodyChars s1 ++ '"' :: rest) from by simp,
                    psb_esc fuel (by decide) (show unescChar 't' = some (Char.ofNat 9) from rfl),
                    ih s1 rest hlen1, ← h9, Char.ofNat_toNat]
                  rfl
                · rw [if_neg h9]
                  by_cases h10 : c.toNat = 10
                  · rw [if_pos h10,
                      show (['\\', 'n'] ++ escBodyChars s1 ++ '"' :: rest)
                        = '\\' :: 'n' :: (escBodyChars s1 ++ '"' :: rest) from by simp,
                      psb_esc fuel (by decide)
                        (show unescChar 'n' = some (Char.ofNat 10) from rfl),
                      ih s1 rest hlen1, ← h10, Char.ofNat_toNat]
                    rfl
                  · rw [if_neg h10]
                    by_cases h12 : c.toNat = 12
                    · rw [if_pos h12,
                        show (['\\', 'f'] ++ escBodyChars s1 ++ '"' :: rest)
                          = '\\' :: 'f' :: (escBodyChars s1 ++ '"' :: rest) from by simp,
                        psb_esc fuel (by decide)
                          (show unescChar 'f' = some (Char.ofNat 12) from rfl),
                        ih s1 rest hlen1, ← h12, Char.ofNat_toNat]
                      rfl
                    · rw [if_neg h12]
                      by_cases h13 : c.toNat = 13
                      · rw [if_pos h13,
                          show (['\\', 'r'] ++ escBodyChars s1 ++ '"' :: rest)
                            = '\\' :: 'r' :: (escBodyChars s1 ++ '"' :: rest) from by simp,
                          psb_esc fuel (by decide)
                            (show unescChar 'r' = some (Char.ofNat 13) from rfl),
                          ih s1 rest hlen1, ← h13, Char.ofNat_toNat]
                        rfl
                      · rw [if_neg h13]
                        by_cases h32 : c.toNat < 32
                        · rw [if_pos h32,
                            show (['\\', 'u', '0', '0', hexDigitChar (c.toNat / 16),
                                hexDigitChar (c.toNat % 16)] ++ escBodyChars s1 ++ '"' :: rest)
                              = '\\' :: 'u' :: '0' :: '0' :: hexDigitChar (c.toNat / 16) ::
                                hexDigitChar (c.toNat % 16) ::
                                (escBodyChars s1 ++ '"' :: rest) from by simp,
                            psb_hex fuel (show hexVal '0' = some 0 from rfl)
                              (show hexVal '0' = some 0 from rfl)
                              (hexVal_hexDigitChar (by omega : c.toNat / 16 < 16))
                              (hexVal_hexDigitChar (by omega : c.toNat % 16 < 16)),
                            ih s1 rest hlen1,
                            show ((0 * 16 + 0) * 16 + c.toNat / 16) * 16 + c.toNat % 16
                              = c.toNat from by omega,
                            Char.ofNat_toNat]
                          rfl
                        · rw [if_neg h32,
                            show ([c] ++ escBodyChars s1 ++ '"' :: rest)
                              = c :: (escBodyChars s1 ++ '"' :: rest) from by simp,
                            psb_plain fuel hq hb, ih s1 rest hlen1]
                          rfl

/-- Numeric value of a decimal digit character. -/
def digitVal (c : Char) : Nat := c.toNat - 48

/-- Value of a list of decimal digit characters, most significant first. -/
def digitsVal (ds : List Char) : Nat :=
  ds.foldl (fun a c => a * 10 + digitVal c) 0

/-- Parse a JSON number as `JSON.stringify` renders the modelled integers:
an optional minus sign followed by one or more decimal digits. -/
def parseNum (cs : List Char) : Option (Int × List Char) :=
  match cs with
  | [] => none
  | c :: rest =>
      if c = '-' then
        let ds := rest.takeWhile Char.isDigit
        if ds.isEmpty then none
        else some (-(digitsVal ds : Int), rest.drop ds.length)
      else
        let ds := (c :: rest).takeWhile Char.isDigit
        if ds.isEmpty then none
        else some ((digitsVal ds : Int), (c :: rest).drop ds.length)

/-- Parse a JSON string literal. -/
def parseStr (cs : List Char) : Option (String × List Char) :=
  match cs with
  | [] => none
  | c :: rest =>
      if c = '"' then
        (parseStrBodyF rest.length rest).map (fun r => (String.mk r.1, r.2))
      else none

/-- Parse a JSON value of the shapes `jsonVal` emits: a string literal, one
of the boolean keywords, or an integer. -/
def parseVal (cs : List Char) : Option (PValue × List Char) :=
  match cs with
  | [] => none
  | c :: rest =>
      if c = '"' then
        (parseStrBodyF rest.length rest).map (fun r => (PValue.s (String.mk r.1), r.2))
      else if c = 't' then
        match rest with
        | 'r' :: 'u' :: 'e' :: rest2 => some (PValue.b true, rest2)
        | _ => none
      else if c = 'f' then
        match rest with
        | 'a' :: 'l' :: 's' :: 'e' :: rest2 => some (PValue.b false, rest2)
        | _ => none
      else (parseNum (c :: rest)).map (fun r => (PValue.n r.1, r.2))

theorem digitVal_digitChar {d : Nat} (hd : d < 10) : digitVal (digitChar d) = d := by
  interval_cases d <;> decide

theorem isDigit_digitChar {d : Nat} (hd : d < 10) : (digitChar d).isDigit = true := by
  interval_cases d <;> decide

theorem natDigits_all_digits : ∀ n, ∀ c ∈ natDigits n, c.isDigit = true := by
  intro n
  induction n using Nat.strong_induction_on with
  | _ n ih =>
      rw [natDigits]
      split
      · next h =>
          intro c hc
          simp only [List.mem_singleton] at hc
          subst hc
          exact isDigit_digitChar h
      · next h =>
          intro c hc
          rw [List.mem_append] at hc
          rcases hc with hc | hc
          · exact ih (n / 10) (Nat.div_lt_self (by omega) (by omega)) c hc
          · simp only [List.mem_singleton] at hc
            subst hc
            exact isDigit_digitChar (Nat.mod_lt _ (by omega))

theorem natDigits_ne_nil (n : Nat) : natDigits n ≠ [] := by
  rw [natDigits]
  split <;> simp

theorem digitsVal_append (l : List Char) (d : Char) :
    digitsVal (l ++ [d]) = digitsVal l * 10 + digitVal d := by
  simp [digitsVal, List.foldl_append]

theorem digitsVal_natDigits : ∀ n, digitsVal (natDigits n) = n := by
  intro n
  induction n using Nat.strong_induction_on with
  | _ n ih =>
      rw [natDigits]
      split
      · next h =>
          simp [digitsVal, List.foldl]
          exact digitVal_digitChar h
      · next h =>
          rw [digitsVal_append, ih (n / 10) (Nat.div_lt_self (by omega) (by omega)),
            digitVal_digitChar (Nat.mod_lt _ (by omega))]
          omega

theorem takeWhile_append_all {p : Char → Bool} {ds rest : List Char}
    (hall : ∀ c ∈ ds, p c = true)
    (hrest : ∀ c, rest.head? = some c → p c = false) :
    (ds ++ rest).takeWhile p = ds := by
  induction ds with
  | nil =>
      simp only [List.nil_append]
      cases rest with
      | nil => rfl
      | cons c tl =>
          rw [List.takeWhile_cons, hrest c rfl]
          simp
  | cons c tl ih =>
      rw [List.cons_append, List.takeWhile_cons, hall c (by simp),
        ih (fun c hc => hall c (by simp [hc]))]
      simp

theorem isDigit_ne_of_not {c d : Char} (h : c.isDigit = true) (hd : d.isDigit = false) :
    ¬ c = d := by
  intro he
  subst he
  rw [h] at hd
  exact Bool.noConfusion hd

theorem parseNum_round (i : Int) (rest : List Char)
    (hrest : ∀ c, rest.head? = some c → c.isDigit = false) :
    parseNum ((intRepr i).data ++ rest) = some (i, rest) := by
  by_cases hneg : i < 0
  · have hd : (intRepr i).data = '-' :: natDigits i.natAbs := by
      rw [intRepr, if_pos hneg, String.data_append]
      rfl
    rw [hd, List.cons_append, parseNum.eq_def]
    dsimp only
    rw [if_pos rfl,
      takeWhile_append_all (natDigits_all_digits i.natAbs) hrest]
    rw [if_neg (by simp [List.isEmpty_iff, natDigits_ne_nil])]
    rw [List.drop_left, digitsVal_natDigits]
    have : -((i.natAbs : Nat) : Int) = i := by omega
    rw [this]
  · have hd : (intRepr i).data = natDigits i.natAbs := by
      rw [intRepr, if_neg hneg]
    obtain ⟨d, ds, hds⟩ : ∃ d ds, natDigits i.natAbs = d :: ds := by
      cases hnd : natDigits i.natAbs with
      | nil => exact absurd hnd (natDigits_ne_nil _)
      | cons d ds => exact ⟨d, ds, rfl⟩
    have hddig : d.isDigit = true := natDigits_all_digits i.natAbs d (by rw [hds]; simp)
    rw [hd, hds, List.cons_append, parseNum.eq_def]
    dsimp only
    rw [if_neg (isDigit_ne_of_not hddig (by decide))]
    rw [show d :: (ds ++ rest) = (d :: ds) ++ rest from rfl]
    rw [takeWhile_append_all (fun c hc => natDigits_all_digits i.natAbs c (by rw [hds]; exact hc)) hrest]
    rw [if_neg (by simp [List.isEmpty_iff])]
    rw [List.drop_left, ← hds, digitsVal_natDigits]
    have : ((i.natAbs : Nat) : Int) = i := by omega
    rw [this]

theorem data_inj {s t : String} (h : s.data = t.data) : s = t := by
  cases s
  cases t
  exact congrArg String.mk h

theorem mk_data (s : String) : String.mk s.data = s := by
  cases s
  rfl

theorem parseStr_round (s : String) (rest : List Char) :
    parseStr ((jsonStrLit s).data ++ rest) = some (s, rest) := by
  rw [show (jsonStrLit s).data = '"' :: (escBodyChars s.data ++ ['"']) from rfl,
    List.cons_append, parseStr.eq_def]
  dsimp only
  rw [if_pos rfl, List.append_assoc, List.singleton_append,
    parseStrBodyF_round _ s.data rest
      (by simp only [List.length_append, List.length_cons]
          have := escBodyChars_length s.data
          omega)]
  simp [mk_data]

theorem intRepr_head (i : Int) :
    ∃ c tl, (intRepr i).data = c :: tl ∧ (c = '-' ∨ c.isDigit = true) := by
  by_cases hneg : i < 0
  · refine ⟨'-', natDigits i.natAbs, ?_, Or.inl rfl⟩
    rw [intRepr, if_pos hneg, String.data_append]
    rfl
  · obtain ⟨d, ds, hds⟩ : ∃ d ds, natDigits i.natAbs = d :: ds := by
      cases hnd : natDigits i.natAbs with
      | nil => exact absurd hnd (natDigits_ne_nil _)
      | cons d ds => exact ⟨d, ds, rfl⟩
    refine ⟨d, ds, ?_, Or.inr (natDigits_all_digits i.natAbs d (by rw [hds]; simp))⟩
    rw [intRepr, if_neg hneg]
    exact hds

theorem parseVal_round (v : PValue) (rest : List Char)
    (hrest : ∀ c, rest.head? = some c → c.isDigit = false) :
    parseVal ((jsonVal v).data ++ rest) = some (v, rest) := by
  cases v with
  | s str =>
      rw [show (jsonVal (PValue.s str)).data = '"' :: (escBodyChars str.data ++ ['"']) from rfl,
        List.cons_append, parseVal.eq_def]
      dsimp only
      rw [if_pos rfl, List.append_assoc, List.singleton_append,
        parseStrBodyF_round _ str.data rest
          (by simp only [List.length_append, List.length_cons]
              have := escBodyChars_length str.data
              omega)]
      simp [mk_data]
  | n i =>
      obtain ⟨c, tl, hdata, hc⟩ := intRepr_head i
      rw [show (jsonVal (PValue.n i)).data = (intRepr i).data from rfl, hdata,
        List.cons_append, parseVal.eq_def]
      dsimp only
      have hq : ¬ c = '"' := by
        rcases hc with hc | hc
        · subst hc; decide
        · exact isDigit_ne_of_not hc (by decide)
      have ht : ¬ c = 't' := by
        rcases hc with hc | hc
        · subst hc; decide
        · exact isDigit_ne_of_not hc (by decide)
      have hf : ¬ c = 'f' := by
        rcases hc with hc | hc
        · subst hc; decide
        · exact isDigit_ne_of_not hc (by decide)
      rw [if_neg hq, if_neg ht, if_neg hf, ← List.cons_append, ← hdata,
        parseNum_round i rest hrest]
      rfl
  | b bv =>
      cases bv with
      | true =>
          rw [show (jsonVal (PValue.b true)).data ++ rest
              = 't' :: 'r' :: 'u' :: 'e' :: rest from rfl, parseVal.eq_def]
          dsimp only
          rw [if_neg (by decide), if_pos rfl]
          rfl
      | false =>
          rw [show (jsonVal (PValue.b false)).data ++ rest
              = 'f' :: 'a' :: 'l' :: 's' :: 'e' :: rest from rfl, parseVal.eq_def]
          dsimp only
          rw [if_neg (by decide), if_neg (by decide), if_pos rfl]
          rfl

/-- Parse one member `"key":value` of the serialized parameter object. -/
def parseEntry (cs : List Char) : Option ((String × PValue) × List Char) :=
  match parseStr cs with
  | none => none
  | some (k, rest) =>
      match rest with
      | [] => none
      | c :: rest2 =>
          if c = ':' then (parseVal rest2).map (fun r => ((k, r.1), r.2)) else none

theorem parseEntry_round (k : String) (v : PValue) (rest : List Char)
    (hrest : ∀ c, rest.head? = some c → c.isDigit = false) :
    parseEntry ((jsonStrLit k ++ ":" ++ jsonVal v).data ++ rest) = some ((k, v), rest) := by
  rw [parseEntry.eq_def, String.data_append, String.data_append, List.append_assoc,
    List.append_assoc, parseStr_round]
  dsimp only
  rw [show (":").data ++ ((jsonVal v).data ++ rest)
      = ':' :: ((jsonVal v).data ++ rest) from rfl]
  dsimp only
  rw [if_pos rfl, parseVal_round v rest hrest]
  rfl

/-- Parse a nonempty comma-separated member list, stopping at the first
non-comma separator; the fuel bounds the number of members. -/
def parseEntriesF : Nat → List Char → Option (Params × List Char)
  | 0, _ => none
  | fuel + 1, cs =>
      match parseEntry cs with
      | none => none
      | some (kv, rest) =>
          match rest with
          | [] => some ([kv], [])
          | c :: rest2 =>
              if c = ',' then (parseEntriesF fuel rest2).map (fun r => (kv :: r.1, r.2))
              else some ([kv], c :: rest2)

theorem parseEntriesF_round : ∀ (fuel : Nat) (ps : Params) (rest : List Char),
    ps ≠ [] → ps.length ≤ fuel → rest.head? = some '\x7d' →
    parseEntriesF fuel ((jsonEntries ps).data ++ rest) = some (ps, rest) := by
  intro fuel
  induction fuel with
  | zero =>
      intro ps rest hne hlen _
      cases ps with
      | nil => exact absurd rfl hne
      | cons kv tl => simp at hlen
  | succ fuel ih =>
      intro ps rest hne hlen hbr
      have hrd : ∀ c, rest.head? = some c → c.isDigit = false := by
        intro c hc
        rw [hbr] at hc
        cases hc
        decide
      cases ps with
      | nil => exact absurd rfl hne
      | cons kv tl =>
          obtain ⟨k, v⟩ := kv
          cases tl with
          | nil =>
              obtain ⟨rest0, hr0⟩ : ∃ rest0, rest = '\x7d' :: rest0 := by
                cases rest with
                | nil => simp at hbr
                | cons c0 rest0 =>
                    simp only [List.head?_cons, Option.some.injEq] at hbr
                    exact ⟨rest0, by rw [hbr]⟩
              rw [show jsonEntries [(k, v)] = jsonStrLit k ++ ":" ++ jsonVal v from rfl,
                parseEntriesF.eq_def]
              dsimp only
              rw [parseEntry_round k v rest hrd, hr0]
              dsimp only
              rw [if_neg (by decide)]
          | cons kv2 tl2 =>
              rw [show jsonEntries ((k, v) :: kv2 :: tl2)
                  = jsonStrLit k ++ ":" ++ jsonVal v ++ "," ++ jsonEntries (kv2 :: tl2)
                  from rfl,
                String.data_append, String.data_append, List.append_assoc,
                List.append_assoc, show (",").data = [','] from rfl,
                List.singleton_append, parseEntriesF.eq_def]
              dsimp only
              rw [parseEntry_round k v _ (by intro c hc; cases hc; decide)]
              dsimp only
              rw [if_pos rfl,
                ih (kv2 :: tl2) rest (by simp)
                  (by simp only [List.length_cons] at hlen ⊢; omega) hbr]
              rfl

theorem jsonEntries_length : ∀ ps : Params, ps.length ≤ (jsonEntries ps).data.length := by
  intro ps
  induction ps with
  | nil => simp [jsonEntries]
  | cons kv tl ih =>
      cases tl with
      | nil =>
          rw [show jsonEntries [kv] = jsonStrLit kv.1 ++ ":" ++ jsonVal kv.2 from rfl,
            String.data_append, String.data_append]
          have h1 : 1 ≤ (jsonStrLit kv.1).data.length := by
            rw [show (jsonStrLit kv.1).data = '"' :: (escBodyChars kv.1.data ++ ['"']) from rfl]
            simp
          simp only [List.length_append, List.length_cons, List.length_nil]
          omega
      | cons kv2 tl2 =>
          rw [show jsonEntries (kv :: kv2 :: tl2)
              = jsonStrLit kv.1 ++ ":" ++ jsonVal kv.2 ++ "," ++ jsonEntries (kv2 :: tl2)
              from rfl,
            String.data_append, String.data_append]
          have h2 : 1 ≤ (",").data.length := by decide
          simp only [List.length_append, List.length_cons] at ih ⊢
          omega

/-- Parse a serialized parameter object (`jsonParams` output), requiring the
entire input to be consumed. -/
def parseParams (cs : List Char) : Option Params :=
  match cs with
  | [] => none
  | c :: rest =>
      if c = '{' then
        if rest = ['}'] then some []
        else
          match parseEntriesF rest.length rest with
          | some (ps, ['}']) => some ps
          | _ => none
      else none

theorem parseParams_round (ps : Params) : parseParams (jsonParams ps).data = some ps := by
  cases ps with
  | nil => rfl
  | cons kv tl =>
      have hdata : (jsonParams (kv :: tl)).data
          = '{' :: ((jsonEntries (kv :: tl)).data ++ ['}']) := by
        rw [jsonParams, String.data_append, String.data_append]
        rfl
      rw [hdata, parseParams.eq_def]
      dsimp only
      rw [if_pos rfl]
      have hne2 : ¬ ((jsonEntries (kv :: tl)).data ++ ['}'] = ['}']) := by
        intro he
        have hl := congrArg List.length he
        have h1 := jsonEntries_length (kv :: tl)
        simp only [List.length_append, List.length_cons, List.length_nil] at hl h1
        omega
      rw [if_neg hne2]
      rw [parseEntriesF_round _ (kv :: tl) ['}'] (by simp)
        (by have h1 := jsonEntries_length (kv :: tl)
            simp only [List.length_append, List.length_cons, List.length_nil] at h1 ⊢
            omega)
        rfl]
      rfl

theorem jsonParams_inj {ps₁ ps₂ : Params} (h : jsonParams ps₁ = jsonParams ps₂) :
    ps₁ = ps₂ := by
  have h2 : parseParams (jsonParams ps₁).data = parseParams (jsonParams ps₂).data := by
    rw [h]
  rw [parseParams_round, parseParams_round] at h2
  exact Option.some.inj h2

/-- C5 (amended): the cache key embeds `JSON.stringify(params)` in insertion
order. The value-distinctness half of the claim holds: for a fixed locale and
key the map `params ↦ getCacheKey` is injective on parameter objects, so two
calls with different parameter content never collide (an empty object is
keyed like an absent one). The order-independence half fails: the serialized
member list follows insertion order, so two maps with equal content in
different orders get different keys (see the counterexample). -/
theorem getCacheKey_spec :
    (∀ loc key ps₁ ps₂,
        getCacheKey loc key (some ps₁) = getCacheKey loc key (some ps₂) → ps₁ = ps₂)
    ∧ (∀ loc key, getCacheKey loc key (some []) = getCacheKey loc key none)
    ∧ (∀ loc key ps, ps ≠ [] →
        getCacheKey loc key (some ps) = loc ++ ":" ++ key ++ ":" ++ jsonParams ps) := by
  refine ⟨?_, fun loc key => rfl, ?_⟩
  · intro loc key ps₁ ps₂ h
    simp only [getCacheKey] at h
    by_cases h1 : ps₁.length = 0
    · by_cases h2 : ps₂.length = 0
      · rw [List.length_eq_zero] at h1 h2
        rw [h1, h2]
      · rw [if_pos h1, if_neg h2] at h
        have hl := congrArg (fun s => s.data.length) h
        simp only [String.data_append, List.length_append, List.length_cons,
          List.length_nil] at hl
        omega
    · by_cases h2 : ps₂.length = 0
      · rw [if_neg h1, if_pos h2] at h
        have hl := congrArg (fun s => s.data.length) h
        simp only [String.data_append, List.length_append, List.length_cons,
          List.length_nil] at hl
        omega
      · rw [if_neg h1, if_neg h2] at h
        have hd := congrArg String.data h
        rw [show loc ++ ":" ++ key ++ ":" ++ jsonParams ps₁
            = (loc ++ ":" ++ key ++ ":") ++ jsonParams ps₁ from by
              rw [String.append_assoc],
          show loc ++ ":" ++ key ++ ":" ++ jsonParams ps₂
            = (loc ++ ":" ++ key ++ ":") ++ jsonParams ps₂ from by
              rw [String.append_assoc],
          String.data_append, String.data_append] at hd
        exact jsonParams_inj (data_inj (List.append_cancel_left hd))
  · intro loc key ps hne
    simp only [getCacheKey]
    rw [if_neg (by simpa [List.length_eq_zero] using hne)]

/-- Witness for `getCacheKey_spec`: the injectivity half applied at equal
concrete keys, and the nonempty-serialization half at a one-member map. -/
theorem getCacheKey_spec_w :
    [("a", PValue.s "x")] = [("a", PValue.s "x")]
    ∧ getCacheKey "l" "k" (some []) = getCacheKey "l" "k" none
    ∧ getCacheKey "l" "k" (some [("a", PValue.s "x")])
        = "l" ++ ":" ++ "k" ++ ":" ++ jsonParams [("a", PValue.s "x")] :=
  ⟨getCacheKey_spec.1 "l" "k" [("a", PValue.s "x")] [("a", PValue.s "x")] rfl,
   getCacheKey_spec.2.1 "l" "k",
   getCacheKey_spec.2.2 "l" "k" [("a", PValue.s "x")] (by decide)⟩

/-- C5 counterexample: two parameter maps with identical key-value content in
different insertion orders (a permutation of one another) receive different
cache keys for the same locale and key, so the key function is not
order-independent. -/
theorem getCacheKey_order_cex :
    List.Perm [("a", PValue.s "1"), ("b", PValue.s "2")]
      [("b", PValue.s "2"), ("a", PValue.s "1")]
    ∧ getCacheKey "l" "k" (some [("a", PValue.s "1"), ("b", PValue.s "2")])
      ≠ getCacheKey "l" "k" (some [("b", PValue.s "2"), ("a", PValue.s "1")]) := by
  constructor
  · exact List.Perm.swap _ _ _
  · decide

/-! Cache transparency: machinery for comparing a caching engine with a
cache-free one. -/

theorem renderSeg_empty (esc : Bool) (seg : Seg) :
    renderSeg (replParam esc []) seg = rawSeg seg := by
  cases seg with
  | lit c => rfl
  | ph w =>
      show (replParam esc [] w).data = '{' :: (w.data ++ ['}'])
      rw [show replParam esc [] w = "\x7b" ++ w ++ "\x7d" from rfl,
        String.data_append, String.data_append]
      rfl

theorem interpolate_empty (esc : Bool) (text : String) :
    interpolate esc text (some []) = text := by
  apply data_inj
  show (interpGo (replParam esc []) text.data.length text.data) = text.data
  rw [interpGo_render,
    List.map_congr_left (fun seg _ => renderSeg_empty esc seg)]
  exact segs_rawF text.data.length text.data le_rfl text.data.length

theorem interpolate_emptyish (esc : Bool) (v : String) {p : Option Params}
    (hp : p = none ∨ p = some []) : interpolate esc v p = v := by
  rcases hp with rfl | rfl
  · rfl
  · exact interpolate_empty esc v

theorem resolvePure_emptyish (c : Core) (key : String) {p q : Option Params}
    (hp : p = none ∨ p = some []) (hq : q = none ∨ q = some []) :
    resolvePure c key p = resolvePure c key q := by
  unfold resolvePure
  dsimp only
  rw [interpolate_emptyish _ _ hp, interpolate_emptyish _ _ hp,
    interpolate_emptyish _ _ hq, interpolate_emptyish _ _ hq]

theorem append_sep_inj {sep : Char} : ∀ {xs : List Char} {ys as bs : List Char},
    sep ∉ xs → sep ∉ ys → xs ++ sep :: as = ys ++ sep :: bs → xs = ys ∧ as = bs := by
  intro xs
  induction xs with
  | nil =>
      intro ys as bs _ hy h
      cases ys with
      | nil => simpa using h
      | cons y ys2 =>
          simp only [List.nil_append, List.cons_append, List.cons.injEq] at h
          exact absurd (h.1 ▸ List.mem_cons_self y ys2) hy
  | cons x xs2 ih =>
      intro ys as bs hx hy h
      cases ys with
      | nil =>
          simp only [List.cons_append, List.nil_append, List.cons.injEq] at h
          exact absurd (h.1.symm ▸ List.mem_cons_self x xs2) hx
      | cons y ys2 =>
          simp only [List.cons_append, List.cons.injEq] at h
          obtain ⟨hxy, h2⟩ := h
          obtain ⟨h3, h4⟩ := ih (fun hm => hx (List.mem_cons_of_mem _ hm))
            (fun hm => hy (List.mem_cons_of_mem _ hm)) h2
          exact ⟨by rw [hxy, h3], h4⟩

theorem append_left_cancel_str {A s t : String} (h : A ++ s = A ++ t) : s = t := by
  apply data_inj
  have hd := congrArg String.data h
  rw [String.data_append, String.data_append] at hd
  exact List.append_cancel_left hd

theorem getCacheKey_cases (L k : String) (p : Option Params) :
    ((p = none ∨ p = some []) ∧ getCacheKey L k p = L ++ ":" ++ k)
    ∨ (∃ ps, p = some ps ∧ ps ≠ [] ∧
        getCacheKey L k p = L ++ ":" ++ k ++ ":" ++ jsonParams ps) := by
  cases p with
  | none => exact Or.inl ⟨Or.inl rfl, rfl⟩
  | some ps =>
      cases ps with
      | nil => exact Or.inl ⟨Or.inr rfl, rfl⟩
      | cons kv tl =>
          refine Or.inr ⟨kv :: tl, rfl, by simp, ?_⟩
          simp only [getCacheKey]
          rw [if_neg (by simp)]

theorem getCacheKey_colonfree_inj {L k k' : String} {p p' : Option Params}
    (hk : ':' ∉ k.data) (hk' : ':' ∉ k'.data)
    (h : getCacheKey L k p = getCacheKey L k' p') :
    k = k' ∧ (p = p' ∨ ((p = none ∨ p = some []) ∧ (p' = none ∨ p' = some []))) := by
  rcases getCacheKey_cases L k p with ⟨he, hf⟩ | ⟨ps, hps, hne, hf⟩ <;>
    rcases getCacheKey_cases L k' p' with ⟨he', hf'⟩ | ⟨ps', hps', hne', hf'⟩
  · rw [hf, hf'] at h
    exact ⟨append_left_cancel_str h, Or.inr ⟨he, he'⟩⟩
  · rw [hf, hf'] at h
    rw [show L ++ ":" ++ k' ++ ":" ++ jsonParams ps'
        = (L ++ ":") ++ (k' ++ (":" ++ jsonParams ps')) from by
          rw [String.append_assoc, String.append_assoc]] at h
    have hd := congrArg String.data (append_left_cancel_str h)
    simp only [String.data_append, show ((":").data) = [':'] from rfl,
      List.singleton_append] at hd
    exact absurd (by rw [hd]; simp : ':' ∈ k.data) hk
  · rw [hf, hf'] at h
    rw [show L ++ ":" ++ k ++ ":" ++ jsonParams ps
        = (L ++ ":") ++ (k ++ (":" ++ jsonParams ps)) from by
          rw [String.append_assoc, String.append_assoc]] at h
    have hd := congrArg String.data (append_left_cancel_str h.symm)
    simp only [String.data_append, show ((":").data) = [':'] from rfl,
      List.singleton_append] at hd
    exact absurd (by rw [hd]; simp : ':' ∈ k'.data) hk'
  · rw [hf, hf'] at h
    rw [show L ++ ":" ++ k ++ ":" ++ jsonParams ps
        = (L ++ ":") ++ (k ++ (":" ++ jsonParams ps)) from by
          rw [String.append_assoc, String.append_assoc],
      show L ++ ":" ++ k' ++ ":" ++ jsonParams ps'
        = (L ++ ":") ++ (k' ++ (":" ++ jsonParams ps')) from by
          rw [String.append_assoc, String.append_assoc]] at h
    have hd := congrArg String.data (append_left_cancel_str h)
    simp only [String.data_append, show ((":").data) = [':'] from rfl,
      List.singleton_append] at hd
    obtain ⟨hkd, hjd⟩ := append_sep_inj hk hk' hd
    refine ⟨data_inj hkd, Or.inl ?_⟩
    rw [hps, hps', jsonParams_inj (data_inj hjd)]
/-- Soundness of a result-cache content relative to resolution data `c`: every
entry is the cache key of some colon-free key and parameter object, holding
exactly the cache-free resolution result. -/
def CacheGood (c : Core) (cache : List (String × String)) : Prop :=
  ∀ ck v, (ck, v) ∈ cache →
    ∃ k p, ':' ∉ k.data ∧ ck = getCacheKey c.currentLocale k p
      ∧ v = resolvePure c k p

theorem cacheGood_nil (c : Core) : CacheGood c [] := by
  intro ck v h
  simp at h

theorem mem_addToCache {N : Nat} {ck0 v0 : String} {c : List (String × String)}
    {x : String × String} (h : x ∈ addToCache N ck0 v0 c) :
    x = (ck0, v0) ∨ x ∈ c := by
  rw [addToCache.eq_def] at h
  dsimp only at h
  by_cases hN : N ≤ c.length
  · rw [if_pos hN] at h
    cases hc : c.head? with
    | none =>
        rw [hc] at h
        rcases mem_setKey h with h1 | h1
        · exact Or.inl h1
        · exact Or.inr h1
    | some kv =>
        rw [hc] at h
        rcases mem_setKey h with h1 | h1
        · exact Or.inl h1
        · exact Or.inr (mem_delKey h1)
  · rw [if_neg hN] at h
    rcases mem_setKey h with h1 | h1
    · exact Or.inl h1
    · exact Or.inr h1

theorem cacheGood_hit {c : Core} {cache : List (String × String)}
    (hg : CacheGood c cache) {k : String} {p : Option Params} {v : String}
    (hk : ':' ∉ k.data)
    (hhit : getKey cache (getCacheKey c.currentLocale k p) = some v) :
    v = resolvePure c k p := by
  obtain ⟨k', p', hk', hck, hv⟩ := hg _ _ (getKey_mem hhit)
  obtain ⟨hkk, hpp⟩ := getCacheKey_colonfree_inj hk hk' hck
  subst hkk
  rcases hpp with rfl | ⟨hep, hep'⟩
  · exact hv
  · rw [hv]
    exact (resolvePure_emptyish c k hep hep').symm

theorem cacheGood_add {c : Core} {cache : List (String × String)}
    (hg : CacheGood c cache) {N : Nat} {k : String} {p : Option Params}
    (hk : ':' ∉ k.data) :
    CacheGood c (addToCache N (getCacheKey c.currentLocale k p)
      (resolvePure c k p) cache) := by
  intro ck v h
  rcases mem_addToCache h with h1 | h1
  · injection h1 with h1 h2
    exact ⟨k, p, hk, h1, h2⟩
  · exact hg ck v h1

/-- Simulation relation between a cache-free engine `su` and a caching engine
`sc`: the two agree on every resolution-relevant field and on the listener
registry, the key caches are well formed, and every entry of the caching
engine's result cache is sound for the shared resolution data. -/
structure Sim (su sc : I18n) : Prop where
  cur : sc.currentLocale = su.currentLocale
  dloc : sc.defaultLocale = su.defaultLocale
  locs : sc.localesArray = su.localesArray
  tr : sc.translations = su.translations
  fb : sc.fallbackBehavior = su.fallbackBehavior
  esc : sc.escapeHtmlEnabled = su.escapeHtmlEnabled
  ceu : su.cacheEnabled = false
  cec : sc.cacheEnabled = true
  kcu : KCOk su.keyCache
  kcc : KCOk sc.keyCache
  good : CacheGood sc.core sc.translationCache

theorem Sim.core_eq {su sc : I18n} (h : Sim su sc) : sc.core = su.core := by
  unfold I18n.core
  rw [h.cur, h.dloc, h.tr, h.fb, h.esc]

theorem setLocale_state_cases (s : I18n) (L : String) :
    ((¬ s.localesArray.contains L = true ∨ s.currentLocale = L)
        ∧ (setLocale s L).2.1 = s)
    ∨ (s.localesArray.contains L = true ∧ ¬ s.currentLocale = L
        ∧ (setLocale s L).2.1
          = if s.cacheEnabled = true
            then { s with currentLocale := L, translationCache := [] }
            else { s with currentLocale := L }) := by
  unfold setLocale
  by_cases h1 : ¬ s.localesArray.contains L = true
  · rw [if_pos h1]
    exact Or.inl ⟨Or.inl h1, rfl⟩
  · rw [if_neg h1]
    by_cases h2 : s.currentLocale = L
    · rw [if_pos h2]
      exact Or.inl ⟨Or.inr h2, rfl⟩
    · rw [if_neg h2]
      refine Or.inr ⟨by simpa using h1, h2, ?_⟩
      dsimp only

theorem loadTranslations_state (s : I18n) (L : String) (data : Obj) :
    loadTranslations s L data
      = if s.cacheEnabled = true
        then { s with
                translations := setKey s.translations L
                  (mergeDeep (match getKey s.translations L with
                    | some obj => obj
                    | none => []) data),
                translationCache := [] }
        else { s with
                translations := setKey s.translations L
                  (mergeDeep (match getKey s.translations L with
                    | some obj => obj
                    | none => []) data) } := by
  unfold loadTranslations
  dsimp only

theorem sim_step {su sc : I18n} (h : Sim su sc) (op : Op)
    (hop : ∀ k p, op = Op.trans k p → ':' ∉ k.data) :
    Sim (runOp su op).1 (runOp sc op).1 ∧ (runOp su op).2 = (runOp sc op).2 := by
  cases op with
  | trans k p =>
      have hk := hop k p rfl
      have htu : t su k p = tCore su k p := by
        unfold t
        rw [h.ceu]
        simp
      obtain ⟨u1, u2, u3, _, _⟩ := tCore_spec su k p h.kcu
      show Sim (t su k p).2 (t sc k p).2 ∧ some (t su k p).1 = some (t sc k p).1
      rw [htu]
      unfold t
      rw [h.cec]
      rw [if_pos rfl]
      cases hhit : getKey sc.translationCache (getCacheKey sc.currentLocale k p) with
      | some v =>
          dsimp only
          have hv : v = resolvePure sc.core k p := cacheGood_hit h.good hk hhit
          refine ⟨?_, ?_⟩
          · exact { cur := h.cur.trans u2.cur.symm, dloc := h.dloc.trans u2.dloc.symm,
                    locs := h.locs.trans u2.locs.symm, tr := h.tr.trans u2.tr.symm,
                    fb := h.fb.trans u2.fb.symm, esc := h.esc.trans u2.esc.symm,
                    ceu := u2.ce.trans h.ceu, cec := h.cec,
                    kcu := u3, kcc := h.kcc, good := h.good }
          · rw [u1, hv, h.core_eq]
      | none =>
          dsimp only
          obtain ⟨c1, c2, c3, c4, _⟩ := tCore_spec sc k p h.kcc
          refine ⟨?_, ?_⟩
          · refine { cur := c2.cur.trans (h.cur.trans u2.cur.symm),
                     dloc := c2.dloc.trans (h.dloc.trans u2.dloc.symm),
                     locs := c2.locs.trans (h.locs.trans u2.locs.symm),
                     tr := c2.tr.trans (h.tr.trans u2.tr.symm),
                     fb := c2.fb.trans (h.fb.trans u2.fb.symm),
                     esc := c2.esc.trans (h.esc.trans u2.esc.symm),
                     ceu := u2.ce.trans h.ceu, cec := c2.ce.trans h.cec,
                     kcu := u3, kcc := c3, good := ?_ }
            have hcg : (tCore sc k p).2.core = sc.core := c2.core
            rw [hcg]
            rcases c4 with hc | hc
            · rw [hc]
              exact h.good
            · rw [hc]
              exact cacheGood_add h.good hk
          · rw [u1, c1, h.core_eq]
  | setLoc l =>
      refine ⟨?_, rfl⟩
      show Sim (setLocale su l).2.1 (setLocale sc l).2.1
      rcases setLocale_state_cases su l with ⟨hc1, he1⟩ | ⟨hc1, hs1, he1⟩ <;>
        rcases setLocale_state_cases sc l with ⟨hc2, he2⟩ | ⟨hc2, hs2, he2⟩
      · rw [he1, he2]
        exact h
      · exfalso
        rcases hc1 with hnc | hsame
        · rw [h.locs] at hc2
          exact hnc hc2
        · rw [h.cur] at hs2
          exact hs2 hsame
      · exfalso
        rcases hc2 with hnc | hsame
        · rw [h.locs] at hnc
          exact hnc hc1
        · rw [h.cur] at hsame
          exact hs1 hsame
      · rw [he1, he2, if_pos h.cec, if_neg (by simp [h.ceu])]
        exact { cur := rfl, dloc := h.dloc, locs := h.locs, tr := h.tr,
                fb := h.fb, esc := h.esc, ceu := h.ceu, cec := h.cec,
                kcu := h.kcu, kcc := h.kcc, good := cacheGood_nil _ }
  | load l data =>
      refine ⟨?_, rfl⟩
      show Sim (loadTranslations su l data) (loadTranslations sc l data)
      rw [loadTranslations_state su l data, loadTranslations_state sc l data,
        if_pos h.cec, if_neg (by simp [h.ceu])]
      refine { cur := h.cur, dloc := h.dloc, locs := h.locs, tr := ?_,
               fb := h.fb, esc := h.esc, ceu := h.ceu, cec := h.cec,
               kcu := h.kcu, kcc := h.kcc, good := cacheGood_nil _ }
      show setKey sc.translations l _ = setKey su.translations l _
      rw [h.tr]
  | clear =>
      refine ⟨?_, rfl⟩
      exact { cur := h.cur, dloc := h.dloc, locs := h.locs, tr := h.tr,
              fb := h.fb, esc := h.esc, ceu := h.ceu, cec := h.cec,
              kcu := h.kcu, kcc := h.kcc, good := cacheGood_nil _ }
theorem sim_runOps : ∀ (ops : List Op) {su sc : I18n}, Sim su sc →
    (∀ k p, Op.trans k p ∈ ops → ':' ∉ k.data) →
    (runOps su ops).2 = (runOps sc ops).2 := by
  intro ops
  induction ops with
  | nil =>
      intro su sc _ _
      rfl
  | cons op rest ih =>
      intro su sc h hops
      obtain ⟨hsim, hout⟩ := sim_step h op
        (fun k p he => hops k p (by rw [← he]; exact List.mem_cons_self _ _))
      show ((runOp su op).2.toList ++ (runOps (runOp su op).1 rest).2)
        = ((runOp sc op).2.toList ++ (runOps (runOp sc op).1 rest).2)
      rw [hout, ih hsim (fun k p hm => hops k p (List.mem_cons_of_mem _ hm))]

/-- C10 (amended): the result cache is observation-preserving only for keys
that contain no colon. For every option record and every sequence of
synchronous public operations whose translated keys are all colon-free, the
two engines that differ only in `enableCache` produce identical translation
outputs. For keys containing `:` the claim fails: the cache key
`locale:key[:json]` does not delimit its components, so a key of the form
`k:\x7bjson\x7d` aliases the cache entry of key `k` with parameters, and a
cached engine can return a wrong translation (see the counterexample). -/
theorem cache_transparent (opts : I18nOptions) (ops : List Op)
    (hops : ∀ k p, Op.trans k p ∈ ops → ':' ∉ k.data) :
    (runOps (mkI18n { opts with enableCache := some false }) ops).2
      = (runOps (mkI18n { opts with enableCache := some true }) ops).2 := by
  refine sim_runOps ops ?_ hops
  exact { cur := rfl, dloc := rfl, locs := rfl, tr := rfl, fb := rfl, esc := rfl,
          ceu := rfl, cec := rfl, kcu := KCOk.nil, kcc := KCOk.nil,
          good := cacheGood_nil _ }

/-- Witness for `cache_transparent`: a one-translation run over a colon-free
key produces the same output with and without the result cache. -/
theorem cache_transparent_w :
    (runOps (mkI18n { ({} : I18nOptions) with enableCache := some false })
        [Op.trans "greeting" none]).2
      = (runOps (mkI18n { ({} : I18nOptions) with enableCache := some true })
        [Op.trans "greeting" none]).2 :=
  cache_transparent {} [Op.trans "greeting" none]
    (fun k p hm => by
      simp only [List.mem_singleton] at hm
      injection hm with h1 h2
      subst h1
      decide)

/-- Options of the C10 counterexample: one locale `L` whose table holds the
template `A\x7bk\x7d` at key `x` and the plain leaf `B` at the key
`x:\x7b"k":"v"\x7d` (a key containing a colon). -/
def oC10 : I18nOptions where
  defaultLocale := some "L"
  locales := some ["L"]
  translations :=
    some [("L", [("x", Tree.leaf "A\x7bk\x7d"),
                 ("x:\x7b\"k\":\"v\"\x7d", Tree.leaf "B")])]

/-- Operations of the C10 counterexample: translate `x` with parameter map
`\x7bk: "v"\x7d`, then translate the literal key `x:\x7b"k":"v"\x7d` with no
parameters. Both calls build the same composite cache key. -/
def opsC10 : List Op :=
  [Op.trans "x" (some [("k", PValue.s "v")]),
   Op.trans "x:\x7b\"k\":\"v\"\x7d" none]

/-- C10 counterexample: on two identically-configured engines differing only
in `enableCache`, the second translation returns its stored leaf `B` without
the cache but the aliased cached value `Av` with it — the result cache changes
an observable translation result for keys containing `:`. -/
theorem cache_transparent_cex :
    (runOps (mkI18n { oC10 with enableCache := some false }) opsC10).2
      ≠ (runOps (mkI18n { oC10 with enableCache := some true }) opsC10).2
    ∧ (runOps (mkI18n { oC10 with enableCache := some false }) opsC10).2 = ["Av", "B"]
    ∧ (runOps (mkI18n { oC10 with enableCache := some true }) opsC10).2 = ["Av", "Av"] := by
  refine ⟨?_, ?_, ?_⟩ <;> decide

end DreamerI18n
